import Mathlib

/-!
Shallow embedding of the windowing/caching engine of `react-virtual-scroll`
(`src/VirtualScroll.tsx` and `src/VirtualScrollRow.tsx`), together with
theorems checking the specification's claims about the height table, the
item cache with distance-based eviction, the fetch coordinator, the window
calculator and the row packer.
-/

/-! ## Height table (heightsRef / prefixRef / totalDeltaRef) -/

/-- Per-index height table state. `heights` models `heightsRef.current`
(a key absent from the JS object is `none`), `pref` models
`prefixRef.current`, and `totalDelta` models `totalDeltaRef.current`. -/
structure HeightState where
  heights : Nat → Option Int
  pref : List Int
  totalDelta : Int

/-- Fresh height table: `heightsRef.current = {}`, `prefixRef.current = [0]`,
`totalDeltaRef.current = 0`. -/
def initHS : HeightState := ⟨fun _ => none, [0], 0⟩

/-- Loop body of `ensurePrefix`, iterated `n` times: each iteration appends
`pref[i-1] + (heights[i-1] ?? defaultHeight)` at position `i = pref.length`. -/
def extendSteps (heights : Nat → Option Int) (d : Int) : Nat → List Int → List Int
  | 0, l => l
  | n + 1, l =>
    extendSteps heights d n
      (l ++ [l.getD (l.length - 1) 0 + (heights (l.length - 1)).getD d])

/-- Model of `ensurePrefix(index)`: run the loop `for (i = pref.length; i <= index; i++)`,
i.e. `index + 1 - pref.length` append steps. -/
def ensurePref (d : Int) (hs : HeightState) (index : Nat) : HeightState :=
  { hs with pref := extendSteps hs.heights d (index + 1 - hs.pref.length) hs.pref }

/-- Model of `topForIndex(index)`: `if (index <= 0) return 0; ensurePrefix(index);
return prefixRef.current[index]`. Returns the (possibly extended) table
together with the value. -/
def topForIndex (d : Int) (hs : HeightState) (index : Int) : HeightState × Int :=
  if index ≤ 0 then (hs, 0)
  else
    let hs' := ensurePref d hs index.toNat
    (hs', hs'.pref.getD index.toNat 0)

/-- Model of `setIndexHeight(index, h)`: compute `delta = h - (heights[index] ?? d)`;
if `delta` is zero do nothing, otherwise record the height, add `delta`
to the running total and to every materialized entry strictly after
`index` (`for (i = index + 1; i < pref.length; i++) pref[i] += delta`,
rendered as take/map-over-drop). -/
def setIndexHeight (d : Int) (hs : HeightState) (index : Nat) (h : Int) : HeightState :=
  let prev := (hs.heights index).getD d
  let delta := h - prev
  if delta = 0 then hs
  else
    { heights := fun j => if j = index then some h else hs.heights j
      pref := hs.pref.take (index + 1) ++ (hs.pref.drop (index + 1)).map (fun x => x + delta)
      totalDelta := hs.totalDelta + delta }

/-- Height of index `j` as the engine sees it: the recorded height or the
weighted default. -/
def heightAt (d : Int) (hs : HeightState) (j : Nat) : Int := (hs.heights j).getD d

/-- Sum of the (latest) heights of indices `0 .. n-1`. -/
def sumHeights (d : Int) (hs : HeightState) (n : Nat) : Int :=
  ((List.range n).map (heightAt d hs)).sum

/-- A height-table operation: either a `setIndexHeight` call or a
`topForIndex` query (which materializes the prefix array on demand). -/
inductive HOp where
  | set (index : Nat) (h : Int)
  | query (index : Int)

/-- Apply one operation to the table. -/
def applyHOp (d : Int) (hs : HeightState) : HOp → HeightState
  | .set i h => setIndexHeight d hs i h
  | .query i => (topForIndex d hs i).1

/-- Apply a sequence of operations to the table. -/
def runHOps (d : Int) (hs : HeightState) (ops : List HOp) : HeightState :=
  ops.foldl (applyHOp d) hs

/-- The height-table invariant: the prefix array is nonempty and every
materialized entry is the sum of the latest heights below it. -/
def hsInv (d : Int) (hs : HeightState) : Prop :=
  1 ≤ hs.pref.length ∧ ∀ i < hs.pref.length, hs.pref.getD i 0 = sumHeights d hs i

theorem sumHeights_succ (d : Int) (hs : HeightState) (n : Nat) :
    sumHeights d hs (n + 1) = sumHeights d hs n + heightAt d hs n := by
  simp [sumHeights, List.range_succ]

theorem getD_append_lt {l l' : List Int} {i : Nat} (h : i < l.length) (dflt : Int) :
    (l ++ l').getD i dflt = l.getD i dflt := by
  simp [List.getD_eq_getElem?_getD, List.getElem?_append_left h]

theorem getD_append_len {l : List Int} (a dflt : Int) :
    (l ++ [a]).getD l.length dflt = a := by
  simp [List.getD_eq_getElem?_getD, List.getElem?_append_right (Nat.le_refl _)]

theorem extendSteps_length (heights : Nat → Option Int) (d : Int) (n : Nat) (l : List Int) :
    (extendSteps heights d n l).length = l.length + n := by
  induction n generalizing l with
  | zero => simp [extendSteps]
  | succ n ih => simp [extendSteps, ih]; omega

theorem extendSteps_append (heights : Nat → Option Int) (d : Int) (n : Nat) (l : List Int) :
    ∃ t, extendSteps heights d n l = l ++ t := by
  induction n generalizing l with
  | zero => exact ⟨[], by simp [extendSteps]⟩
  | succ n ih =>
    obtain ⟨t, ht⟩ := ih (l ++ [l.getD (l.length - 1) 0 + (heights (l.length - 1)).getD d])
    exact ⟨_, by rw [extendSteps, ht, List.append_assoc]⟩

/-- Each append step writes the correct prefix sum, so `extendSteps`
preserves the invariant (stated on a bare list sharing `hs.heights`). -/
theorem extendSteps_inv (d : Int) (hs : HeightState) (n : Nat) (l : List Int)
    (hlen : 1 ≤ l.length)
    (hl : ∀ i < l.length, l.getD i 0 = sumHeights d hs i) :
    (∀ i < (extendSteps hs.heights d n l).length,
      (extendSteps hs.heights d n l).getD i 0 = sumHeights d hs i) := by
  induction n generalizing l with
  | zero => simpa [extendSteps] using hl
  | succ n ih =>
    rw [extendSteps]
    apply ih
    · simp only [List.length_append, List.length_cons, List.length_nil]; omega
    · intro i hi
      simp at hi
      rcases Nat.lt_or_ge i l.length with hlt | hge
      · rw [getD_append_lt hlt]; exact hl i hlt
      · have hi' : i = l.length := by omega
        subst hi'
        rw [getD_append_len]
        have h1 : l.length - 1 < l.length := by omega
        have := hl (l.length - 1) h1
        have hlen' : l.length - 1 + 1 = l.length := by omega
        rw [this]
        calc sumHeights d hs (l.length - 1) + (hs.heights (l.length - 1)).getD d
            = sumHeights d hs (l.length - 1) + heightAt d hs (l.length - 1) := rfl
          _ = sumHeights d hs (l.length - 1 + 1) := (sumHeights_succ d hs _).symm
          _ = sumHeights d hs l.length := by rw [hlen']

theorem ensurePref_inv (d : Int) (hs : HeightState) (index : Nat) (h : hsInv d hs) :
    hsInv d (ensurePref d hs index) := by
  obtain ⟨h1, h2⟩ := h
  constructor
  · simp [ensurePref, extendSteps_length]; omega
  · intro i hi
    exact extendSteps_inv d hs _ hs.pref h1 h2 i hi

theorem ensurePref_heights (d : Int) (hs : HeightState) (index : Nat) :
    (ensurePref d hs index).heights = hs.heights := rfl

theorem ensurePref_length (d : Int) (hs : HeightState) (index : Nat) :
    (ensurePref d hs index).pref.length = hs.pref.length + (index + 1 - hs.pref.length) := by
  simp [ensurePref, extendSteps_length]

/-- Under the invariant, `topForIndex` answers the prefix sum of the latest heights. -/
theorem topForIndex_val (d : Int) (hs : HeightState) (index : Int) (h : hsInv d hs) :
    (topForIndex d hs index).2 = sumHeights d hs index.toNat := by
  rcases Int.le_or_lt index 0 with hle | hpos
  · have : index.toNat = 0 := Int.toNat_of_nonpos hle
    simp [topForIndex, hle, this, sumHeights]
  · have hnot : ¬ index ≤ 0 := by omega
    have hinv := ensurePref_inv d hs index.toNat h
    have hlen : index.toNat < (ensurePref d hs index.toNat).pref.length := by
      rw [ensurePref_length]; omega
    simp only [topForIndex, hnot, if_false]
    have := hinv.2 index.toNat hlen
    rw [this]
    rfl

theorem sumHeights_set (d : Int) (hs : HeightState) (index : Nat) (h : Int) (n : Nat) :
    sumHeights d (setIndexHeight d hs index h) n =
      sumHeights d hs n + (if index < n then h - (hs.heights index).getD d else 0) := by
  unfold setIndexHeight
  by_cases hd : h - (hs.heights index).getD d = 0
  · simp only [hd, if_pos]
    have : h = (hs.heights index).getD d := by omega
    simp [this]
  · simp only [hd, if_neg, if_false]
    induction n with
    | zero => simp [sumHeights]
    | succ n ih =>
      rw [sumHeights_succ, sumHeights_succ, ih]
      by_cases hin : index = n
      · subst hin
        simp [heightAt]
        try omega
      · have hne : ¬ n = index := fun hh => hin hh.symm
        simp [heightAt, hne]
        split_ifs <;> omega

theorem getD_take_map_drop (l : List Int) (cut : Nat) (delta : Int) (i : Nat)
    (hi : i < l.length) :
    (l.take cut ++ (l.drop cut).map (fun x => x + delta)).getD i 0 =
      l.getD i 0 + (if cut ≤ i then delta else 0) := by
  rcases Nat.lt_or_ge i cut with hlt | hge
  · have hlen : i < (l.take cut).length := by simp; omega
    rw [getD_append_lt hlen]
    have : ¬ cut ≤ i := by omega
    simp [this, List.getD_eq_getElem?_getD, List.getElem?_take, hlt]
  · have hcut : cut ≤ l.length := by omega
    have hlen : (l.take cut).length = cut := by simp; omega
    have hge' : (l.take cut).length ≤ i := by omega
    rw [List.getD_eq_getElem?_getD, List.getElem?_append_right hge', hlen]
    simp only [List.getElem?_map, List.getElem?_drop]
    have : cut + (i - cut) = i := by omega
    rw [this]
    have : l[i]? = some (l.getD i 0) := by
      rw [List.getD_eq_getElem?_getD, List.getElem?_eq_getElem hi]
      rfl
    rw [this]
    simp [hge]

theorem setIndexHeight_inv (d : Int) (hs : HeightState) (index : Nat) (h : Int)
    (hinv : hsInv d hs) : hsInv d (setIndexHeight d hs index h) := by
  obtain ⟨h1, h2⟩ := hinv
  unfold setIndexHeight
  by_cases hd : h - (hs.heights index).getD d = 0
  · simpa [hd] using ⟨h1, h2⟩
  · simp only [hd, if_false]
    constructor
    · simp; omega
    · intro i hi
      have hilen : i < hs.pref.length := by
        simp at hi; omega
      have := getD_take_map_drop hs.pref (index + 1) (h - (hs.heights index).getD d) i hilen
      simp only at this ⊢
      rw [this, h2 i hilen]
      have hsum := sumHeights_set d hs index h i
      unfold setIndexHeight at hsum
      simp only [hd, if_false] at hsum
      rw [hsum]
      by_cases hc : index < i
      · have : index + 1 ≤ i := by omega
        simp [hc, this]
      · have : ¬ index + 1 ≤ i := by omega
        simp [hc, this]

theorem topForIndex_inv (d : Int) (hs : HeightState) (index : Int) (h : hsInv d hs) :
    hsInv d (topForIndex d hs index).1 := by
  unfold topForIndex
  by_cases hle : index ≤ 0
  · simpa [hle]
  · simp only [hle, if_false]
    exact ensurePref_inv d hs index.toNat h

theorem runHOps_inv (d : Int) (ops : List HOp) (hs : HeightState) (h : hsInv d hs) :
    hsInv d (runHOps d hs ops) := by
  induction ops generalizing hs with
  | nil => exact h
  | cons op ops ih =>
    rw [runHOps, List.foldl_cons]
    apply ih
    cases op with
    | set i hh => exact setIndexHeight_inv d hs i hh h
    | query i => exact topForIndex_inv d hs i h

theorem initHS_inv (d : Int) : hsInv d initHS := by
  constructor
  · simp [initHS]
  · intro i hi
    simp [initHS] at hi
    have : i = 0 := by omega
    subst this
    simp [initHS, sumHeights]

/-- C1. For every sequence of `setHeight`/materialization operations applied
to a fresh height table, `topForIndex i` returns the sum of the latest
heights of indices `0 .. i-1` (the weighted default for indices never set);
and a single `setIndexHeight` never recomputes the prefix array from zero:
it keeps its length, leaves every entry at positions `≤ index` untouched and
shifts every later materialized entry by the one delta `h - previous`. -/
theorem height_table_prefix_sum_correct (d : Int) (ops : List HOp) (i : Int) :
    (topForIndex d (runHOps d initHS ops) i).2
        = sumHeights d (runHOps d initHS ops) i.toNat
      ∧ ∀ (hs : HeightState) (index : Nat) (h : Int),
        (setIndexHeight d hs index h).pref
            = hs.pref.take (index + 1)
              ++ (hs.pref.drop (index + 1)).map
                  (fun x => x + (h - (hs.heights index).getD d))
          ∧ (setIndexHeight d hs index h).pref.length = hs.pref.length := by
  refine ⟨topForIndex_val d _ i (runHOps_inv d ops initHS (initHS_inv d)), ?_⟩
  intro hs index h
  constructor
  · unfold setIndexHeight
    by_cases hd : h - (hs.heights index).getD d = 0
    · simp [hd]
    · simp [hd]
  · unfold setIndexHeight
    by_cases hd : h - (hs.heights index).getD d = 0
    · simp [hd]
    · simp [hd]; omega

/-- C10. `topForIndex` on any index `i ≤ 0` returns `0` and leaves the table
untouched; and on any index it only ever appends to the prefix array, never
changing an already-materialized entry. -/
theorem topForIndex_nonpos_and_append (d : Int) (hs : HeightState) (i : Int) :
    (i ≤ 0 → topForIndex d hs i = (hs, 0))
      ∧ ∃ t, (topForIndex d hs i).1.pref = hs.pref ++ t := by
  constructor
  · intro hle
    simp [topForIndex, hle]
  · unfold topForIndex
    by_cases hle : i ≤ 0
    · exact ⟨[], by simp [hle]⟩
    · simp only [hle, if_false]
      exact extendSteps_append hs.heights d _ hs.pref

/-- Witness for C10 at `d = 60`, the fresh table and `i = -1`. -/
theorem topForIndex_nonpos_and_append_witness :
    topForIndex 60 initHS (-1) = (initHS, 0)
      ∧ ∃ t, (topForIndex 60 initHS (-1)).1.pref = initHS.pref ++ t :=
  ⟨(topForIndex_nonpos_and_append 60 initHS (-1)).1 (by decide),
    (topForIndex_nonpos_and_append 60 initHS (-1)).2⟩

/-! ## Item cache as a canonical association list

A JS object with integer-like keys enumerates its keys in ascending numeric
order, so `itemsMap` is modelled as an association list strictly sorted by
key. -/

/-- First-match lookup in an association list. -/
def lookupKey {β : Type} : List (Nat × β) → Nat → Option β
  | [], _ => none
  | (k, v) :: xs, q => if q = k then some v else lookupKey xs q

/-- Keys strictly ascending: the canonical form of a JS object with numeric
keys. -/
def keysSorted {β : Type} (l : List (Nat × β)) : Prop :=
  l.Pairwise (fun a b => a.1 < b.1)

/-- Option fallback: `orO a b` is `a` if present, otherwise `b` (the later spread wins in
`{ ...prev, ...fetched }` when `a` is the `fetched` side). -/
def orO {β : Type} (a b : Option β) : Option β :=
  match a with
  | some v => some v
  | none => b

/-- Merge of two key-sorted association lists, the second one winning on
common keys: the model of the object spread `{ ...prev, ...fetched }`. -/
def mergeSorted {β : Type} : List (Nat × β) → List (Nat × β) → List (Nat × β)
  | [], f => f
  | m, [] => m
  | (k, v) :: m, (k', v') :: f =>
    if k < k' then (k, v) :: mergeSorted m ((k', v') :: f)
    else if k' < k then (k', v') :: mergeSorted ((k, v) :: m) f
    else (k', v') :: mergeSorted m f
termination_by m f => m.length + f.length

/-! ## Distance-based eviction -/

/-- Distance `Math.abs(a - offset)` on cache keys. -/
def distN (offset k : Nat) : Nat := ((k : Int) - (offset : Int)).natAbs

/-- Insert a key into a list already sorted by distance from `offset`,
before the first element at greater-or-equal distance (the position a
stable ascending sort gives it). -/
def insertByDist (offset k : Nat) : List Nat → List Nat
  | [] => [k]
  | x :: xs =>
    if distN offset k ≤ distN offset x then k :: x :: xs
    else x :: insertByDist offset k xs

/-- Model of `keys.sort((a, b) => Math.abs(a - offset) - Math.abs(b - offset))`:
the stable ascending-by-distance sort of the key list. -/
def sortByDist (offset : Nat) (l : List Nat) : List Nat :=
  l.foldr (insertByDist offset) []

/-- The eviction pass of `fetchItems`: order keys by distance to the fetch
offset, keep the first `cacheSize` of them, and rebuild the map restricted
to the kept keys. -/
def evictNearest {β : Type} (cacheSize offset : Nat) (merged : List (Nat × β)) :
    List (Nat × β) :=
  let keys := sortByDist offset (merged.map Prod.fst)
  let keep := keys.take cacheSize
  merged.filter (fun p => keep.contains p.1)

/-! ## Fetch coordinator state and `fetchItems` -/

/-- Model of `TorrentData<T>`: one fetched record, tagged with its layout key. -/
structure TorrentData (α : Type) where
  lKey : String
  data : α
deriving DecidableEq

/-- The configuration captured by the `VirtualScroll` closure: props plus
the measured layout heights and the weighted default height. -/
structure Config where
  pageSize : Nat
  isInfinite : Bool
  useCache : Bool
  cacheSize : Nat
  defaultHeight : Int
  layoutHeights : String → Option Int

/-- The engine state touched by `fetchItems`: `resolvedCount`, `itemsMap`,
the height table refs and `maxLoadedCountRef`. -/
@[ext] structure EngineState (α : Type) where
  resolvedCount : Option Nat
  itemsMap : List (Nat × TorrentData α)
  heights : HeightState
  maxLoadedCount : Nat

/-- Fresh engine state. -/
def initES (α : Type) : EngineState α := ⟨none, [], initHS, 0⟩

/-- The per-item guard inside `data.forEach`:
`resolvedCount !== null && idx >= resolvedCount`. -/
def blocked (rc : Option Nat) (idx : Nat) : Bool :=
  match rc with
  | none => false
  | some r => decide (r ≤ idx)

/-- The height each record contributes:
`layoutHeights[item.lKey] ?? defaultHeight`. -/
def itemHeight (cfg : Config) (item : TorrentData α) : Int :=
  (cfg.layoutHeights item.lKey).getD cfg.defaultHeight

/-- The `data.forEach((item, i) => ...)` loop of `fetchItems`: skip items at
or beyond the captured `resolvedCount`, record the rest into `fetched` and
push their heights into the height table. `i` is the running loop index. -/
def procData (cfg : Config) (rc : Option Nat) (offset : Nat) :
    Nat → HeightState → List (TorrentData α) → List (Nat × TorrentData α) × HeightState
  | _, hs, [] => ([], hs)
  | i, hs, item :: rest =>
    if blocked rc (offset + i) then procData cfg rc offset (i + 1) hs rest
    else
      let hs' := setIndexHeight cfg.defaultHeight hs (offset + i) (itemHeight cfg item)
      let r := procData cfg rc offset (i + 1) hs' rest
      ((offset + i, item) :: r.1, r.2)

/-- The `fetched` record built by the `forEach` loop. -/
def fetchedOf (cfg : Config) (s : EngineState α) (offset : Nat)
    (data : List (TorrentData α)) : List (Nat × TorrentData α) :=
  (procData cfg s.resolvedCount offset 0 s.heights data).1

/-- The height table after the `forEach` loop. -/
def heightsOf (cfg : Config) (s : EngineState α) (offset : Nat)
    (data : List (TorrentData α)) : HeightState :=
  (procData cfg s.resolvedCount offset 0 s.heights data).2

/-- Model of `merged`: `useCache ? { ...prev, ...fetched } : fetched`. -/
def mergedOf (cfg : Config) (s : EngineState α) (offset : Nat)
    (data : List (TorrentData α)) : List (Nat × TorrentData α) :=
  if cfg.useCache then mergeSorted s.itemsMap (fetchedOf cfg s offset data)
  else fetchedOf cfg s offset data

/-- Model of `Math.max(...Object.keys(merged).map(Number), -1) + 1`. -/
def currentCountOf {β : Type} (l : List (Nat × β)) : Nat :=
  l.foldr (fun p m => max (p.1 + 1) m) 0

/-- Model of `prev === null ? x : Math.min(prev, x)` used by `setResolvedCount`. -/
def rcMin (rc : Option Nat) (x : Nat) : Nat :=
  match rc with
  | none => x
  | some p => min p x

/-- The initial short-circuit of `fetchItems`:
`resolvedCount !== null && offset >= resolvedCount`. -/
def skipFetch (s : EngineState α) (offset : Nat) : Bool :=
  match s.resolvedCount with
  | none => false
  | some rc => decide (rc ≤ offset)

/-- Body of `fetchItems` once the source responded with `data`. -/
def fetchBody (cfg : Config) (s : EngineState α) (offset size : Nat)
    (data : List (TorrentData α)) : EngineState α :=
  if cfg.isInfinite = true ∧ data.length = 0 then
    { s with resolvedCount := some (rcMin s.resolvedCount offset) }
  else
    let rc' : Option Nat :=
      if cfg.isInfinite = true ∧ data.length < size then
        some (rcMin s.resolvedCount (offset + data.length))
      else s.resolvedCount
    let merged := mergedOf cfg s offset data
    let currentCount := currentCountOf merged
    let maxLoaded := max s.maxLoadedCount currentCount
    let items' :=
      if cfg.useCache = true ∧ cfg.cacheSize < merged.length then
        evictNearest cfg.cacheSize offset merged
      else merged
    { resolvedCount := rc'
      itemsMap := items'
      heights := heightsOf cfg s offset data
      maxLoadedCount := maxLoaded }

/-- Model of `fetchItems(offset, size)` where `data` is the batch the injected source
returned for that call. The Bool records whether the source was actually
called (`false` when the resolved-end short-circuit fired). -/
def fetchItems (cfg : Config) (s : EngineState α) (offset size : Nat)
    (data : List (TorrentData α)) : EngineState α × Bool :=
  if skipFetch s offset then (s, false)
  else (fetchBody cfg s offset size data, true)

/-- Variant of `fetchItems` driven by a deterministic injected source. -/
def fetchItemsT (cfg : Config) (torrent : Nat → Nat → List (TorrentData α))
    (s : EngineState α) (offset size : Nat) : EngineState α × Bool :=
  fetchItems cfg s offset size (torrent offset size)

/-- Run a sequence of fetch observations `(offset, size, data)`. -/
def runFetches (cfg : Config) (s : EngineState α)
    (steps : List (Nat × Nat × List (TorrentData α))) : EngineState α :=
  steps.foldl (fun st t => (fetchItems cfg st t.1 t.2.1 t.2.2).1) s

/-! ## Resolved-count monotonicity -/

theorem fetchItems_of_skip (cfg : Config) (s : EngineState α) (offset size : Nat)
    (data : List (TorrentData α)) (h : skipFetch s offset = true) :
    fetchItems cfg s offset size data = (s, false) := by
  simp [fetchItems, h]

theorem fetchItems_rc_le (cfg : Config) (s : EngineState α) (offset size : Nat)
    (data : List (TorrentData α)) (v : Nat) (hv : s.resolvedCount = some v) :
    ∃ v', ((fetchItems cfg s offset size data).1).resolvedCount = some v' ∧ v' ≤ v := by
  unfold fetchItems
  by_cases hskip : skipFetch s offset
  · exact ⟨v, by simp [hskip, hv], Nat.le_refl v⟩
  · simp only [hskip, if_false]
    unfold fetchBody
    by_cases h0 : cfg.isInfinite = true ∧ data.length = 0
    · exact ⟨rcMin s.resolvedCount offset, by simp [h0], by simp [rcMin, hv]⟩
    · simp only [h0, if_false]
      by_cases h1 : cfg.isInfinite = true ∧ data.length < size
      · exact ⟨rcMin s.resolvedCount (offset + data.length), by simp [h1],
          by simp [rcMin, hv]⟩
      · exact ⟨v, by simp [h1, hv], Nat.le_refl v⟩

theorem runFetches_rc_le (cfg : Config) (s : EngineState α)
    (steps : List (Nat × Nat × List (TorrentData α))) (v : Nat)
    (hv : s.resolvedCount = some v) :
    ∃ v', (runFetches cfg s steps).resolvedCount = some v' ∧ v' ≤ v := by
  induction steps generalizing s v with
  | nil => exact ⟨v, hv, Nat.le_refl v⟩
  | cons step steps ih =>
    obtain ⟨v1, hv1, hle1⟩ := fetchItems_rc_le cfg s step.1 step.2.1 step.2.2 v hv
    obtain ⟨v2, hv2, hle2⟩ := ih _ v1 hv1
    exact ⟨v2, hv2, Nat.le_trans hle2 hle1⟩

/-- C3. In open-ended mode, once `resolvedCount` holds some value `v`, no
later sequence of fetch observations can raise it: it stays non-`none` and
only ever decreases. -/
theorem resolvedCount_monotone (cfg : Config) (s : EngineState α) (v : Nat)
    (hinf : cfg.isInfinite = true) (hv : s.resolvedCount = some v)
    (steps : List (Nat × Nat × List (TorrentData α))) :
    ∃ v', (runFetches cfg s steps).resolvedCount = some v' ∧ v' ≤ v := by
  clear hinf
  exact runFetches_rc_le cfg s steps v hv

/-- Concrete open-ended configuration used by witnesses. -/
def cfgInf : Config :=
  { pageSize := 20
    isInfinite := true
    useCache := true
    cacheSize := 1000
    defaultHeight := 60
    layoutHeights := fun _ => none }

/-- A state whose resolved count is already 5. -/
def esRC5 : EngineState Nat :=
  { initES Nat with resolvedCount := some 5 }

/-- Witness for C3: a subsequent empty observation at offset 3 keeps
`resolvedCount` at or below 5. -/
theorem resolvedCount_monotone_witness :
    ∃ v', (runFetches cfgInf esRC5 [(3, 10, [])]).resolvedCount = some v' ∧ v' ≤ 5 :=
  resolvedCount_monotone cfgInf esRC5 5 rfl rfl [(3, 10, [])]

/-! ## Short response at offset 42 resolving the end at 47 -/

/-- C6. In open-ended mode with no boundary known, a fetch at offset 42
that asked for more than 5 items and received exactly 5 resolves the count
to 47; afterwards, no matter what further observations arrive, any fetch at
offset ≥ 47 is skipped wholesale: the state is untouched and the injected
source is not called. -/
theorem short_fetch_resolves_47 (cfg : Config) (s : EngineState α) (size : Nat)
    (data : List (TorrentData α)) (hinf : cfg.isInfinite = true)
    (hrc : s.resolvedCount = none) (hsize : 5 < size) (hlen : data.length = 5) :
    ((fetchItems cfg s 42 size data).1.resolvedCount = some 47)
      ∧ ∀ (steps : List (Nat × Nat × List (TorrentData α)))
          (offset' size' : Nat) (data' : List (TorrentData α)), 47 ≤ offset' →
          fetchItems cfg (runFetches cfg (fetchItems cfg s 42 size data).1 steps)
              offset' size' data'
            = (runFetches cfg (fetchItems cfg s 42 size data).1 steps, false) := by
  have hskip : skipFetch s 42 = false := by simp [skipFetch, hrc]
  have hrc47 : (fetchItems cfg s 42 size data).1.resolvedCount = some 47 := by
    unfold fetchItems
    simp only [hskip, Bool.false_eq_true, if_false]
    unfold fetchBody
    have h0 : ¬ (cfg.isInfinite = true ∧ data.length = 0) := by
      intro h; rw [hlen] at h; exact absurd h.2 (by omega)
    have h1 : cfg.isInfinite = true ∧ data.length < size := ⟨hinf, by omega⟩
    simp [h0, h1, hlen, rcMin, hrc]
    omega
  refine ⟨hrc47, ?_⟩
  intro steps offset' size' data' hoff
  obtain ⟨v', hv', hle'⟩ :=
    runFetches_rc_le cfg (fetchItems cfg s 42 size data).1 steps 47 hrc47
  have hskip' : skipFetch (runFetches cfg (fetchItems cfg s 42 size data).1 steps)
      offset' = true := by
    simp [skipFetch, hv']
    omega
  exact fetchItems_of_skip cfg _ offset' size' data' hskip'

/-- Five packable records. -/
def data5 : List (TorrentData Nat) :=
  [⟨"a", 0⟩, ⟨"a", 1⟩, ⟨"a", 2⟩, ⟨"a", 3⟩, ⟨"a", 4⟩]

/-- Witness for C6 on a fresh open-ended engine, with one intervening
observation and a later fetch attempt at offset 50. -/
theorem short_fetch_resolves_47_witness :
    ((fetchItems cfgInf (initES Nat) 42 10 data5).1.resolvedCount = some 47)
      ∧ fetchItems cfgInf
            (runFetches cfgInf (fetchItems cfgInf (initES Nat) 42 10 data5).1
              [(0, 3, [])]) 50 5 []
          = (runFetches cfgInf (fetchItems cfgInf (initES Nat) 42 10 data5).1
              [(0, 3, [])], false) := by
  have h := short_fetch_resolves_47 cfgInf (initES Nat) 10 data5 rfl rfl
    (by decide) (by decide)
  exact ⟨h.1, h.2 [(0, 3, [])] 50 5 [] (by decide)⟩

/-! ## Lemmas about the stable distance sort -/

/-- The ordering used by the eviction comparator. -/
def distLe (off : Nat) (a b : Nat) : Prop := distN off a ≤ distN off b

theorem insertByDist_nil (off k : Nat) : insertByDist off k [] = [k] := rfl

theorem insertByDist_cons (off k x : Nat) (xs : List Nat) :
    insertByDist off k (x :: xs)
      = if distN off k ≤ distN off x then k :: x :: xs
        else x :: insertByDist off k xs := rfl

theorem insertByDist_perm (off k : Nat) (l : List Nat) :
    (insertByDist off k l).Perm (k :: l) := by
  induction l with
  | nil => simp [insertByDist]
  | cons x xs ih =>
    unfold insertByDist
    by_cases h : distN off k ≤ distN off x
    · simp [h]
    · simp only [h, if_false]
      exact (ih.cons x).trans (List.Perm.swap k x xs)

theorem sortByDist_perm (off : Nat) (l : List Nat) : (sortByDist off l).Perm l := by
  induction l with
  | nil => simp [sortByDist]
  | cons x xs ih =>
    have : sortByDist off (x :: xs) = insertByDist off x (sortByDist off xs) := rfl
    rw [this]
    exact (insertByDist_perm off x _).trans (ih.cons x)

theorem insertByDist_sorted (off k : Nat) (l : List Nat)
    (h : l.Pairwise (distLe off)) :
    (insertByDist off k l).Pairwise (distLe off) := by
  induction l with
  | nil => simp [insertByDist, List.Pairwise]
  | cons x xs ih =>
    rw [List.pairwise_cons] at h
    obtain ⟨hx, hxs⟩ := h
    unfold insertByDist
    by_cases hk : distN off k ≤ distN off x
    · rw [if_pos hk, List.pairwise_cons]
      refine ⟨?_, List.Pairwise.cons hx hxs⟩
      intro y hy
      rcases List.mem_cons.mp hy with rfl | hy'
      · exact hk
      · exact Nat.le_trans hk (hx y hy')
    · rw [if_neg hk, List.pairwise_cons]
      refine ⟨?_, ih hxs⟩
      intro y hy
      have := (insertByDist_perm off k xs).mem_iff.mp hy
      rcases List.mem_cons.mp this with rfl | hy'
      · exact Nat.le_of_lt (Nat.lt_of_not_le hk)
      · exact hx y hy'

theorem sortByDist_sorted (off : Nat) (l : List Nat) :
    (sortByDist off l).Pairwise (distLe off) := by
  induction l with
  | nil => simp [sortByDist, List.Pairwise]
  | cons x xs ih => exact insertByDist_sorted off x _ ih

theorem insertByDist_front (off k : Nat) (l : List Nat)
    (h : ∀ y ∈ l, distN off k ≤ distN off y) : insertByDist off k l = k :: l := by
  cases l with
  | nil => rfl
  | cons x xs =>
    unfold insertByDist
    rw [if_pos (h x (List.mem_cons_self x xs))]

theorem filter_insertByDist_neg (off k : Nat) (p : Nat → Bool) (l : List Nat)
    (hk : p k = false) : (insertByDist off k l).filter p = l.filter p := by
  induction l with
  | nil => simp [insertByDist, hk]
  | cons x xs ih =>
    unfold insertByDist
    by_cases h : distN off k ≤ distN off x
    · simp [h, hk]
    · simp only [h, if_false]
      by_cases hx : p x
      · simp [List.filter_cons, hx, ih]
      · simp [List.filter_cons, hx, ih]

theorem filter_insertByDist_pos (off k : Nat) (p : Nat → Bool) (l : List Nat)
    (hk : p k = true) (hs : l.Pairwise (distLe off)) :
    (insertByDist off k l).filter p = insertByDist off k (l.filter p) := by
  induction l with
  | nil => simp [insertByDist, hk]
  | cons x xs ih =>
    rw [List.pairwise_cons] at hs
    obtain ⟨hx, hxs⟩ := hs
    rw [insertByDist_cons]
    by_cases h : distN off k ≤ distN off x
    · rw [if_pos h]
      by_cases hpx : p x
      · rw [List.filter_cons_of_pos hk, List.filter_cons_of_pos hpx]
        rw [insertByDist_front off k]
        intro y hy
        rcases List.mem_cons.mp hy with rfl | hy'
        · exact h
        · exact Nat.le_trans h (hx y (List.mem_of_mem_filter hy'))
      · rw [List.filter_cons_of_pos hk, List.filter_cons_of_neg (by simp [hpx])]
        rw [insertByDist_front off k]
        intro y hy
        exact Nat.le_trans h (hx y (List.mem_of_mem_filter hy))
    · rw [if_neg h]
      by_cases hpx : p x
      · rw [List.filter_cons_of_pos hpx, List.filter_cons_of_pos hpx,
          insertByDist_cons, if_neg h, ih hxs]
      · rw [List.filter_cons_of_neg (by simp [hpx]), List.filter_cons_of_neg (by simp [hpx])]
        exact ih hxs

/-- A stable sort commutes with filtering. -/
theorem sortByDist_filter (off : Nat) (p : Nat → Bool) (l : List Nat) :
    sortByDist off (l.filter p) = (sortByDist off l).filter p := by
  induction l with
  | nil => simp [sortByDist]
  | cons x xs ih =>
    have hcons : sortByDist off (x :: xs) = insertByDist off x (sortByDist off xs) := rfl
    by_cases hpx : p x
    · rw [List.filter_cons_of_pos hpx, hcons]
      have : sortByDist off (x :: List.filter p xs)
          = insertByDist off x (sortByDist off (List.filter p xs)) := rfl
      rw [this, ih, filter_insertByDist_pos off x p _ hpx (sortByDist_sorted off xs)]
    · rw [List.filter_cons_of_neg (by simp [hpx]), hcons, ih,
        filter_insertByDist_neg off x p _ (by simp [hpx])]

/-! ## Lemmas about the canonical association list -/

theorem keysSorted_cons {β : Type} {k : Nat} {v : β} {xs : List (Nat × β)} :
    keysSorted ((k, v) :: xs) ↔ (∀ p ∈ xs, k < p.1) ∧ keysSorted xs := by
  unfold keysSorted
  rw [List.pairwise_cons]

theorem lookupKey_eq_none {β : Type} {l : List (Nat × β)} {q : Nat}
    (h : ∀ p ∈ l, p.1 ≠ q) : lookupKey l q = none := by
  induction l with
  | nil => rfl
  | cons x xs ih =>
    unfold lookupKey
    have hx : ¬ q = x.1 := fun hq => h x (List.mem_cons_self x xs) hq.symm
    rw [if_neg hx]
    exact ih fun p hp => h p (List.mem_cons_of_mem x hp)

theorem lookupKey_isSome_iff {β : Type} (l : List (Nat × β)) (q : Nat) :
    (lookupKey l q).isSome = true ↔ q ∈ l.map Prod.fst := by
  induction l with
  | nil => simp [lookupKey]
  | cons x xs ih =>
    unfold lookupKey
    by_cases hq : q = x.1
    · simp [hq]
    · simp [hq, ih]

theorem lookupKey_ext {β : Type} {l l' : List (Nat × β)}
    (hl : keysSorted l) (hl' : keysSorted l')
    (h : ∀ q, lookupKey l q = lookupKey l' q) : l = l' := by
  induction l generalizing l' with
  | nil =>
    cases l' with
    | nil => rfl
    | cons y ys =>
      have := h y.1
      unfold lookupKey at this
      simp at this
  | cons x xs ih =>
    cases l' with
    | nil =>
      have := h x.1
      unfold lookupKey at this
      simp at this
    | cons y ys =>
      obtain ⟨hxb, hxs⟩ := keysSorted_cons.mp hl
      obtain ⟨hyb, hys⟩ := keysSorted_cons.mp hl'
      have hkey : x.1 = y.1 := by
        by_contra hne
        have h1 := h x.1
        have h2 := h y.1
        unfold lookupKey at h1 h2
        rw [if_pos rfl] at h1
        rw [if_pos rfl] at h2
        rw [if_neg (fun hq : x.1 = y.1 => hne hq)] at h1
        rw [if_neg (fun hq : y.1 = x.1 => hne hq.symm)] at h2
        have hx1 : (lookupKey ys x.1).isSome = true := by rw [← h1]; rfl
        have hy1 : (lookupKey xs y.1).isSome = true := by rw [h2]; rfl
        have hxm := (lookupKey_isSome_iff ys x.1).mp hx1
        have hym := (lookupKey_isSome_iff xs y.1).mp hy1
        obtain ⟨p, hp, hpk⟩ := List.mem_map.mp hxm
        obtain ⟨p', hp', hpk'⟩ := List.mem_map.mp hym
        have := hyb p hp
        have := hxb p' hp'
        omega
      have hval : x.2 = y.2 := by
        have h1 := h x.1
        unfold lookupKey at h1
        rw [if_pos rfl, if_pos hkey] at h1
        exact Option.some.inj h1
      have htl : xs = ys := by
        apply ih hxs hys
        intro q
        by_cases hq : q = x.1
        · subst hq
          rw [lookupKey_eq_none fun p hp => Nat.ne_of_gt (hxb p hp),
            lookupKey_eq_none fun p hp => ?_]
          rw [hkey] at *
          exact Nat.ne_of_gt (hyb p hp)
        · have h1 := h q
          unfold lookupKey at h1
          rw [if_neg hq, if_neg (fun hq' : q = y.1 => hq (hq'.trans hkey.symm))] at h1
          exact h1
      calc x :: xs = (x.1, x.2) :: xs := by rw [Prod.mk.eta]
        _ = (y.1, y.2) :: ys := by rw [hkey, hval, htl]
        _ = y :: ys := by rw [Prod.mk.eta]

theorem mergeSorted_nil_left {β : Type} (f : List (Nat × β)) :
    mergeSorted [] f = f := mergeSorted.eq_1 f

theorem mergeSorted_nil_right {β : Type} (m : List (Nat × β)) :
    mergeSorted m [] = m := by
  cases m with
  | nil => exact mergeSorted.eq_1 []
  | cons x xs => rw [mergeSorted.eq_def]

theorem mergeSorted_cons_cons {β : Type} (k : Nat) (v : β) (m : List (Nat × β))
    (k' : Nat) (v' : β) (f : List (Nat × β)) :
    mergeSorted ((k, v) :: m) ((k', v') :: f)
      = if k < k' then (k, v) :: mergeSorted m ((k', v') :: f)
        else if k' < k then (k', v') :: mergeSorted ((k, v) :: m) f
        else (k', v') :: mergeSorted m f := by
  rw [mergeSorted.eq_def]

theorem mem_mergeSorted {β : Type} (m f : List (Nat × β)) (p : Nat × β)
    (h : p ∈ mergeSorted m f) : p ∈ m ∨ p ∈ f := by
  induction m, f using mergeSorted.induct with
  | case1 f => rw [mergeSorted_nil_left] at h; exact Or.inr h
  | case2 m hne => rw [mergeSorted_nil_right] at h; exact Or.inl h
  | case3 k v m k' v' f hlt ih =>
    rw [mergeSorted_cons_cons, if_pos hlt] at h
    rcases List.mem_cons.mp h with rfl | h'
    · exact Or.inl (List.mem_cons_self _ _)
    · rcases ih h' with h'' | h''
      · exact Or.inl (List.mem_cons_of_mem _ h'')
      · exact Or.inr h''
  | case4 k v m k' v' f hlt hlt' ih =>
    rw [mergeSorted_cons_cons, if_neg hlt, if_pos hlt'] at h
    rcases List.mem_cons.mp h with rfl | h'
    · exact Or.inr (List.mem_cons_self _ _)
    · rcases ih h' with h'' | h''
      · exact Or.inl h''
      · exact Or.inr (List.mem_cons_of_mem _ h'')
  | case5 k v m k' v' f hlt hlt' ih =>
    rw [mergeSorted_cons_cons, if_neg hlt, if_neg hlt'] at h
    rcases List.mem_cons.mp h with rfl | h'
    · exact Or.inr (List.mem_cons_self _ _)
    · rcases ih h' with h'' | h''
      · exact Or.inl (List.mem_cons_of_mem _ h'')
      · exact Or.inr (List.mem_cons_of_mem _ h'')

theorem mergeSorted_keysSorted {β : Type} (m f : List (Nat × β))
    (hm : keysSorted m) (hf : keysSorted f) : keysSorted (mergeSorted m f) := by
  induction m, f using mergeSorted.induct with
  | case1 f => rw [mergeSorted_nil_left]; exact hf
  | case2 m hne => rw [mergeSorted_nil_right]; exact hm
  | case3 k v m k' v' f hlt ih =>
    rw [mergeSorted_cons_cons, if_pos hlt]
    obtain ⟨hkb, hm'⟩ := keysSorted_cons.mp hm
    rw [keysSorted_cons]
    refine ⟨?_, ih hm' hf⟩
    intro p hp
    rcases mem_mergeSorted _ _ _ hp with h' | h'
    · exact hkb p h'
    · obtain ⟨hkb', hf'⟩ := keysSorted_cons.mp hf
      rcases List.mem_cons.mp h' with rfl | h''
      · exact hlt
      · exact Nat.lt_trans hlt (hkb' p h'')
  | case4 k v m k' v' f hlt hlt' ih =>
    rw [mergeSorted_cons_cons, if_neg hlt, if_pos hlt']
    obtain ⟨hkb', hf'⟩ := keysSorted_cons.mp hf
    rw [keysSorted_cons]
    refine ⟨?_, ih hm hf'⟩
    intro p hp
    rcases mem_mergeSorted _ _ _ hp with h' | h'
    · obtain ⟨hkb, hm'⟩ := keysSorted_cons.mp hm
      rcases List.mem_cons.mp h' with rfl | h''
      · exact hlt'
      · exact Nat.lt_trans hlt' (hkb p h'')
    · exact hkb' p h'
  | case5 k v m k' v' f hlt hlt' ih =>
    rw [mergeSorted_cons_cons, if_neg hlt, if_neg hlt']
    obtain ⟨hkb, hm'⟩ := keysSorted_cons.mp hm
    obtain ⟨hkb', hf'⟩ := keysSorted_cons.mp hf
    have hkk : k = k' := by omega
    rw [keysSorted_cons]
    refine ⟨?_, ih hm' hf'⟩
    intro p hp
    rcases mem_mergeSorted _ _ _ hp with h' | h'
    · rw [← hkk]; exact hkb p h'
    · exact hkb' p h'

theorem lookupKey_cons {β : Type} (k : Nat) (v : β) (xs : List (Nat × β)) (q : Nat) :
    lookupKey ((k, v) :: xs) q = if q = k then some v else lookupKey xs q := rfl

theorem lookupKey_mergeSorted {β : Type} (m f : List (Nat × β))
    (hm : keysSorted m) (hf : keysSorted f) (q : Nat) :
    lookupKey (mergeSorted m f) q = orO (lookupKey f q) (lookupKey m q) := by
  induction m, f using mergeSorted.induct with
  | case1 f =>
    rw [mergeSorted_nil_left]
    cases hl : lookupKey f q <;> simp [orO, lookupKey, hl]
  | case2 m hne => rw [mergeSorted_nil_right]; simp [orO, lookupKey]
  | case3 k v m k' v' f hlt ih =>
    obtain ⟨hkb, hm'⟩ := keysSorted_cons.mp hm
    simp only [mergeSorted_cons_cons, if_pos hlt, lookupKey_cons]
    by_cases hq : q = k
    · subst hq
      have hf0 : lookupKey f q = none := by
        obtain ⟨hkb', hf'⟩ := keysSorted_cons.mp hf
        exact lookupKey_eq_none fun p hp => by have := hkb' p hp; omega
      rw [if_pos rfl, if_neg (by omega : ¬ q = k'), hf0]
      simp [orO]
    · rw [if_neg hq, if_neg hq, ih hm' hf, lookupKey_cons]
  | case4 k v m k' v' f hlt hlt' ih =>
    obtain ⟨hkb', hf'⟩ := keysSorted_cons.mp hf
    simp only [mergeSorted_cons_cons, if_neg hlt, if_pos hlt', lookupKey_cons]
    by_cases hq : q = k'
    · rw [if_pos hq, if_pos hq]
      simp [orO]
    · rw [if_neg hq, if_neg hq, ih hm hf', lookupKey_cons]
  | case5 k v m k' v' f hlt hlt' ih =>
    have hkk : k = k' := by omega
    subst hkk
    obtain ⟨hkb, hm'⟩ := keysSorted_cons.mp hm
    obtain ⟨hkb', hf'⟩ := keysSorted_cons.mp hf
    simp only [mergeSorted_cons_cons, if_neg hlt, lookupKey_cons]
    by_cases hq : q = k
    · rw [if_pos hq, if_pos hq, if_pos hq]
      simp [orO]
    · rw [if_neg hq, if_neg hq, if_neg hq, ih hm' hf']

theorem lookupKey_filter {β : Type} (P : Nat → Bool) (l : List (Nat × β)) (q : Nat) :
    lookupKey (l.filter (fun p => P p.1)) q = if P q then lookupKey l q else none := by
  induction l with
  | nil => simp [lookupKey]
  | cons x xs ih =>
    obtain ⟨k, v⟩ := x
    by_cases hx : P k
    · have hfil : List.filter (fun p => P p.1) ((k, v) :: xs)
          = (k, v) :: List.filter (fun p => P p.1) xs := by
        simp [List.filter_cons, hx]
      rw [hfil, lookupKey_cons, lookupKey_cons]
      by_cases hq : q = k
      · subst hq
        rw [if_pos rfl, if_pos hx, if_pos rfl]
      · rw [if_neg hq, ih]
        by_cases hP : P q
        · rw [if_pos hP, if_pos hP, if_neg hq]
        · rw [if_neg hP, if_neg hP]
    · have hfil : List.filter (fun p => P p.1) ((k, v) :: xs)
          = List.filter (fun p => P p.1) xs := by
        simp [List.filter_cons, hx]
      rw [hfil, ih, lookupKey_cons]
      by_cases hq : q = k
      · subst hq
        rw [if_neg hx, if_neg hx]
      · rw [if_neg hq]

theorem keysSorted_filter {β : Type} (P : Nat × β → Bool) (l : List (Nat × β))
    (h : keysSorted l) : keysSorted (l.filter P) :=
  List.Pairwise.sublist (List.filter_sublist l) h

theorem keysSorted_nodup_keys {β : Type} (l : List (Nat × β)) (h : keysSorted l) :
    (l.map Prod.fst).Nodup := by
  have : (l.map Prod.fst).Pairwise (· < ·) :=
    List.Pairwise.map Prod.fst (fun a b hab => hab) h
  exact List.Pairwise.imp Nat.ne_of_lt this

theorem map_fst_filter_keys {β : Type} (P : Nat → Bool) (l : List (Nat × β)) :
    (l.filter (fun p => P p.1)).map Prod.fst = (l.map Prod.fst).filter P := by
  induction l with
  | nil => rfl
  | cons x xs ih =>
    by_cases hx : P x.1
    · simp [List.filter_cons, hx, ih]
    · simp [List.filter_cons, hx, ih]

/-! ## Keys produced by the fetch loop are strictly ascending -/

theorem procData_nil (cfg : Config) (rc : Option Nat) (offset i : Nat) (hs : HeightState) :
    procData cfg rc offset i hs ([] : List (TorrentData α)) = ([], hs) := rfl

theorem procData_cons (cfg : Config) (rc : Option Nat) (offset i : Nat) (hs : HeightState)
    (item : TorrentData α) (rest : List (TorrentData α)) :
    procData cfg rc offset i hs (item :: rest)
      = if blocked rc (offset + i) then procData cfg rc offset (i + 1) hs rest
        else
          ((offset + i, item) ::
            (procData cfg rc offset (i + 1)
              (setIndexHeight cfg.defaultHeight hs (offset + i) (itemHeight cfg item)) rest).1,
            (procData cfg rc offset (i + 1)
              (setIndexHeight cfg.defaultHeight hs (offset + i) (itemHeight cfg item)) rest).2) := rfl

theorem procData_key_ge (cfg : Config) (rc : Option Nat) (offset : Nat)
    (l : List (TorrentData α)) :
    ∀ (i : Nat) (hs : HeightState) (p : Nat × TorrentData α),
      p ∈ (procData cfg rc offset i hs l).1 → offset + i ≤ p.1 := by
  induction l with
  | nil => intro i hs p hp; rw [procData_nil] at hp; simp at hp
  | cons item rest ih =>
    intro i hs p hp
    rw [procData_cons] at hp
    by_cases hb : blocked rc (offset + i)
    · rw [if_pos hb] at hp
      have := ih (i + 1) hs p hp
      omega
    · rw [if_neg hb] at hp
      rcases List.mem_cons.mp hp with rfl | hp'
      · exact Nat.le_refl _
      · have := ih (i + 1) _ p hp'
        omega

theorem procData_keysSorted (cfg : Config) (rc : Option Nat) (offset : Nat)
    (l : List (TorrentData α)) :
    ∀ (i : Nat) (hs : HeightState), keysSorted (procData cfg rc offset i hs l).1 := by
  induction l with
  | nil => intro i hs; rw [procData_nil]; exact List.Pairwise.nil
  | cons item rest ih =>
    intro i hs
    rw [procData_cons]
    by_cases hb : blocked rc (offset + i)
    · rw [if_pos hb]; exact ih (i + 1) hs
    · rw [if_neg hb]
      rw [keysSorted_cons]
      refine ⟨?_, ih (i + 1) _⟩
      intro p hp
      have := procData_key_ge cfg rc offset rest (i + 1) _ p hp
      omega

theorem fetchedOf_keysSorted (cfg : Config) (s : EngineState α) (offset : Nat)
    (data : List (TorrentData α)) : keysSorted (fetchedOf cfg s offset data) :=
  procData_keysSorted cfg s.resolvedCount offset data 0 s.heights

theorem mergedOf_keysSorted (cfg : Config) (s : EngineState α) (offset : Nat)
    (data : List (TorrentData α)) (h : keysSorted s.itemsMap) :
    keysSorted (mergedOf cfg s offset data) := by
  unfold mergedOf
  by_cases hc : cfg.useCache = true
  · rw [if_pos hc]
    exact mergeSorted_keysSorted _ _ h (fetchedOf_keysSorted cfg s offset data)
  · rw [if_neg hc]
    exact fetchedOf_keysSorted cfg s offset data

/-! ## Characterizing the eviction pass -/

theorem evictNearest_eq_filter {β : Type} (cs off : Nat) (merged : List (Nat × β)) :
    evictNearest cs off merged
      = merged.filter
          (fun p => ((sortByDist off (merged.map Prod.fst)).take cs).contains p.1) := rfl

theorem evictNearest_length {β : Type} (cs off : Nat) (merged : List (Nat × β))
    (h : keysSorted merged) :
    (evictNearest cs off merged).length = min cs merged.length := by
  have hkeys : (merged.map Prod.fst).Nodup := keysSorted_nodup_keys merged h
  have hperm := sortByDist_perm off (merged.map Prod.fst)
  have hSnodup : (sortByDist off (merged.map Prod.fst)).Nodup := hperm.nodup_iff.mpr hkeys
  have hKnodup : ((sortByDist off (merged.map Prod.fst)).take cs).Nodup :=
    List.Nodup.sublist (List.take_sublist cs _) hSnodup
  have hKsub : ∀ a ∈ (sortByDist off (merged.map Prod.fst)).take cs,
      a ∈ merged.map Prod.fst := by
    intro a ha
    exact hperm.mem_iff.mp (List.mem_of_mem_take ha)
  have hmapfst : (evictNearest cs off merged).map Prod.fst
      = (merged.map Prod.fst).filter
          (fun k => ((sortByDist off (merged.map Prod.fst)).take cs).contains k) := by
    rw [evictNearest_eq_filter]
    exact map_fst_filter_keys _ merged
  have hfil_nodup : ((merged.map Prod.fst).filter
      (fun k => ((sortByDist off (merged.map Prod.fst)).take cs).contains k)).Nodup :=
    List.Nodup.sublist (List.filter_sublist _) hkeys
  have hpermK : ((merged.map Prod.fst).filter
      (fun k => ((sortByDist off (merged.map Prod.fst)).take cs).contains k)).Perm
        ((sortByDist off (merged.map Prod.fst)).take cs) := by
    apply List.perm_of_nodup_nodup_toFinset_eq hfil_nodup hKnodup
    apply Finset.ext
    intro x
    simp only [List.mem_toFinset, List.mem_filter]
    constructor
    · intro hx
      have := hx.2
      simpa using this
    · intro hx
      refine ⟨hKsub x hx, by simpa using hx⟩
  calc (evictNearest cs off merged).length
      = ((evictNearest cs off merged).map Prod.fst).length := (List.length_map _ _).symm
    _ = ((sortByDist off (merged.map Prod.fst)).take cs).length := by
        rw [hmapfst]; exact hpermK.length_eq
    _ = min cs merged.length := by
        rw [List.length_take, hperm.length_eq, List.length_map]

theorem evictNearest_mem {β : Type} (cs off : Nat) (merged : List (Nat × β))
    (p : Nat × β) (hp : p ∈ evictNearest cs off merged) : p ∈ merged := by
  rw [evictNearest_eq_filter] at hp
  exact List.mem_of_mem_filter hp

theorem evictNearest_dist {β : Type} (cs off : Nat) (merged : List (Nat × β))
    (a b : Nat)
    (ha : a ∈ (evictNearest cs off merged).map Prod.fst)
    (hb : b ∈ merged.map Prod.fst)
    (hnb : b ∉ (evictNearest cs off merged).map Prod.fst) :
    distN off a ≤ distN off b := by
  have hmapfst : (evictNearest cs off merged).map Prod.fst
      = (merged.map Prod.fst).filter
          (fun k => ((sortByDist off (merged.map Prod.fst)).take cs).contains k) := by
    rw [evictNearest_eq_filter]
    exact map_fst_filter_keys _ merged
  rw [hmapfst] at ha hnb
  have haK : a ∈ (sortByDist off (merged.map Prod.fst)).take cs := by
    have := (List.mem_filter.mp ha).2
    simpa using this
  have hbD : b ∈ (sortByDist off (merged.map Prod.fst)).drop cs := by
    have hbK : b ∉ (sortByDist off (merged.map Prod.fst)).take cs := by
      intro hbk
      exact hnb (List.mem_filter.mpr ⟨hb, by simpa using hbk⟩)
    have hbS : b ∈ sortByDist off (merged.map Prod.fst) :=
      (sortByDist_perm off _).mem_iff.mpr hb
    rw [← List.take_append_drop cs (sortByDist off (merged.map Prod.fst))] at hbS
    rcases List.mem_append.mp hbS with h' | h'
    · exact absurd h' hbK
    · exact h'
  have hsorted := sortByDist_sorted off (merged.map Prod.fst)
  rw [← List.take_append_drop cs (sortByDist off (merged.map Prod.fst))] at hsorted
  exact (List.pairwise_append.mp hsorted).2.2 a haK b hbD

/-- Unfolding of `fetchBody` in the non-empty (or non-infinite) branch. -/
theorem fetchBody_eq (cfg : Config) (s : EngineState α) (offset size : Nat)
    (data : List (TorrentData α)) (h0 : ¬ (cfg.isInfinite = true ∧ data.length = 0)) :
    fetchBody cfg s offset size data
      = { resolvedCount :=
            if cfg.isInfinite = true ∧ data.length < size then
              some (rcMin s.resolvedCount (offset + data.length))
            else s.resolvedCount
          itemsMap :=
            if cfg.useCache = true ∧ cfg.cacheSize < (mergedOf cfg s offset data).length then
              evictNearest cfg.cacheSize offset (mergedOf cfg s offset data)
            else mergedOf cfg s offset data
          heights := heightsOf cfg s offset data
          maxLoadedCount :=
            max s.maxLoadedCount (currentCountOf (mergedOf cfg s offset data)) } := by
  unfold fetchBody
  rw [if_neg h0]

/-- C2. With caching enabled, `fetchItems` keeps at most `cacheSize` cache
entries, and whenever a merge overflows the capacity the surviving entries
are exactly `cacheSize` entries of the merged map whose keys are nearest
(in absolute distance) to the fetch offset: every surviving key is at
distance no greater than any dropped key. -/
theorem cache_eviction_bound (cfg : Config) (s : EngineState α) (offset size : Nat)
    (data : List (TorrentData α))
    (hcache : cfg.useCache = true)
    (hsorted : keysSorted s.itemsMap)
    (hbound : s.itemsMap.length ≤ cfg.cacheSize) :
    ((fetchItems cfg s offset size data).1.itemsMap.length ≤ cfg.cacheSize)
      ∧ (skipFetch s offset = false →
          ¬ (cfg.isInfinite = true ∧ data.length = 0) →
          cfg.cacheSize < (mergedOf cfg s offset data).length →
          ((fetchItems cfg s offset size data).1.itemsMap.length = cfg.cacheSize
            ∧ (∀ p ∈ (fetchItems cfg s offset size data).1.itemsMap,
                p ∈ mergedOf cfg s offset data)
            ∧ ∀ a b : Nat,
                a ∈ ((fetchItems cfg s offset size data).1.itemsMap.map Prod.fst) →
                b ∈ ((mergedOf cfg s offset data).map Prod.fst) →
                b ∉ ((fetchItems cfg s offset size data).1.itemsMap.map Prod.fst) →
                distN offset a ≤ distN offset b)) := by
  by_cases hskip : skipFetch s offset = true
  · rw [fetchItems_of_skip cfg s offset size data hskip]
    refine ⟨hbound, ?_⟩
    intro hfalse
    rw [hskip] at hfalse
    exact absurd hfalse (by simp)
  · have hskip' : skipFetch s offset = false := by
      cases h : skipFetch s offset
      · rfl
      · exact absurd h hskip
    have hfi : (fetchItems cfg s offset size data).1 = fetchBody cfg s offset size data := by
      unfold fetchItems
      rw [hskip']
      simp
    rw [hfi]
    by_cases h0 : cfg.isInfinite = true ∧ data.length = 0
    · have : fetchBody cfg s offset size data
          = { s with resolvedCount := some (rcMin s.resolvedCount offset) } := by
        unfold fetchBody
        rw [if_pos h0]
      rw [this]
      exact ⟨hbound, fun _ h0' _ => absurd h0 h0'⟩
    · rw [fetchBody_eq cfg s offset size data h0]
      have hmsorted := mergedOf_keysSorted cfg s offset data hsorted
      by_cases hover : cfg.cacheSize < (mergedOf cfg s offset data).length
      · have hcond : cfg.useCache = true
            ∧ cfg.cacheSize < (mergedOf cfg s offset data).length := ⟨hcache, hover⟩
        constructor
        · simp only [if_pos hcond]
          rw [evictNearest_length _ _ _ hmsorted]
          omega
        · intro _ _ _
          refine ⟨?_, ?_, ?_⟩
          · simp only [if_pos hcond]
            rw [evictNearest_length _ _ _ hmsorted]
            omega
          · intro p hp
            simp only [if_pos hcond] at hp
            exact evictNearest_mem _ _ _ p hp
          · intro a b ha hb hnb
            simp only [if_pos hcond] at ha hnb
            exact evictNearest_dist _ _ _ a b ha hb hnb
      · have hcond : ¬ (cfg.useCache = true
            ∧ cfg.cacheSize < (mergedOf cfg s offset data).length) := by
          intro h; exact hover h.2
        simp only [if_neg hcond]
        exact ⟨by omega, fun _ _ hover' => absurd hover' hover⟩

/-- A two-entry cache state used by the C2 witness. -/
def esTwo : EngineState Nat :=
  { initES Nat with itemsMap := [(0, ⟨"a", 0⟩), (1, ⟨"a", 1⟩)] }

/-- A caching configuration with capacity 2. -/
def cfgCap2 : Config :=
  { pageSize := 20
    isInfinite := false
    useCache := true
    cacheSize := 2
    defaultHeight := 60
    layoutHeights := fun _ => none }

/-- Witness for C2: inserting one item at offset 10 into a full cache of
capacity 2 keeps the bound. -/
theorem cache_eviction_bound_witness :
    ((fetchItems cfgCap2 esTwo 10 1 [⟨"a", 10⟩]).1.itemsMap.length ≤ cfgCap2.cacheSize)
      ∧ (skipFetch esTwo 10 = false →
          ¬ (cfgCap2.isInfinite = true ∧ ([⟨"a", 10⟩] : List (TorrentData Nat)).length = 0) →
          cfgCap2.cacheSize < (mergedOf cfgCap2 esTwo 10 [⟨"a", 10⟩]).length →
          (((fetchItems cfgCap2 esTwo 10 1 [⟨"a", 10⟩]).1.itemsMap.length = cfgCap2.cacheSize)
            ∧ (∀ p ∈ (fetchItems cfgCap2 esTwo 10 1 [⟨"a", 10⟩]).1.itemsMap,
                p ∈ mergedOf cfgCap2 esTwo 10 [⟨"a", 10⟩])
            ∧ ∀ a b : Nat,
                a ∈ ((fetchItems cfgCap2 esTwo 10 1 [⟨"a", 10⟩]).1.itemsMap.map Prod.fst) →
                b ∈ ((mergedOf cfgCap2 esTwo 10 [⟨"a", 10⟩]).map Prod.fst) →
                b ∉ ((fetchItems cfgCap2 esTwo 10 1 [⟨"a", 10⟩]).1.itemsMap.map Prod.fst) →
                distN 10 a ≤ distN 10 b)) :=
  cache_eviction_bound cfgCap2 esTwo 10 1 [⟨"a", 10⟩] rfl
    (by unfold keysSorted esTwo; simp) (by decide)

/-! ## Idempotence of the fetch loop on heights -/

theorem setIndexHeight_noop (d : Int) (hs : HeightState) (index : Nat) (h : Int)
    (hh : (hs.heights index).getD d = h) : setIndexHeight d hs index h = hs := by
  unfold setIndexHeight
  rw [hh]
  simp

theorem setIndexHeight_getD_self (d : Int) (hs : HeightState) (index : Nat) (h : Int) :
    ((setIndexHeight d hs index h).heights index).getD d = h := by
  unfold setIndexHeight
  by_cases hd : h - (hs.heights index).getD d = 0
  · simp only [hd, if_pos]
    omega
  · simp [hd]

theorem setIndexHeight_heights_ne (d : Int) (hs : HeightState) (index : Nat) (h : Int)
    (k : Nat) (hk : k ≠ index) :
    (setIndexHeight d hs index h).heights k = hs.heights k := by
  unfold setIndexHeight
  by_cases hd : h - (hs.heights index).getD d = 0
  · simp [hd]
  · simp [hd, hk]

theorem procData_heights_lt (cfg : Config) (rc : Option Nat) (offset : Nat)
    (l : List (TorrentData α)) :
    ∀ (i : Nat) (hs : HeightState) (k : Nat), k < offset + i →
      ((procData cfg rc offset i hs l).2).heights k = hs.heights k := by
  induction l with
  | nil => intro i hs k _; rw [procData_nil]
  | cons item rest ih =>
    intro i hs k hk
    rw [procData_cons]
    by_cases hb : blocked rc (offset + i)
    · rw [if_pos hb]
      exact ih (i + 1) hs k (by omega)
    · rw [if_neg hb]
      have h1 := ih (i + 1)
        (setIndexHeight cfg.defaultHeight hs (offset + i) (itemHeight cfg item)) k (by omega)
      simp only at h1 ⊢
      rw [h1]
      exact setIndexHeight_heights_ne _ _ _ _ k (by omega)

/-- Replaying the `forEach` loop over the height table it already produced
(with a possibly updated `resolvedCount` that blocks the same batch
indices) reproduces the same `fetched` list and leaves the table
unchanged. -/
theorem procData_idem (cfg : Config) (rc0 rc1 : Option Nat) (offset : Nat)
    (l : List (TorrentData α)) :
    ∀ (i : Nat) (hs : HeightState),
      (∀ k, offset + i ≤ k → k < offset + i + l.length →
        blocked rc1 k = blocked rc0 k) →
      procData cfg rc1 offset i (procData cfg rc0 offset i hs l).2 l
        = ((procData cfg rc0 offset i hs l).1, (procData cfg rc0 offset i hs l).2) := by
  induction l with
  | nil => intro i hs _; simp [procData_nil]
  | cons item rest ih =>
    intro i hs hblock
    have hb01 : blocked rc1 (offset + i) = blocked rc0 (offset + i) :=
      hblock (offset + i) (Nat.le_refl _) (by simp)
    by_cases hb : blocked rc0 (offset + i)
    · have h0 : procData cfg rc0 offset i hs (item :: rest)
          = procData cfg rc0 offset (i + 1) hs rest := by
        rw [procData_cons, if_pos hb]
      rw [h0, procData_cons, hb01, if_pos hb]
      exact ih (i + 1) hs fun k hk1 hk2 => hblock k (by omega) (by simp at hk2 ⊢; omega)
    · have hb1 : ¬ (blocked rc1 (offset + i) = true) := by rw [hb01]; exact hb
      set hs' := setIndexHeight cfg.defaultHeight hs (offset + i) (itemHeight cfg item)
        with hhs'
      have h0 : procData cfg rc0 offset i hs (item :: rest)
          = ((offset + i, item) :: (procData cfg rc0 offset (i + 1) hs' rest).1,
             (procData cfg rc0 offset (i + 1) hs' rest).2) := by
        rw [procData_cons, if_neg hb]
      rw [h0, procData_cons, if_neg hb1]
      simp only
      have hself : (((procData cfg rc0 offset (i + 1) hs' rest).2).heights (offset + i)).getD
          cfg.defaultHeight = itemHeight cfg item := by
        rw [procData_heights_lt cfg rc0 offset rest (i + 1) hs' (offset + i) (by omega)]
        rw [hhs']
        exact setIndexHeight_getD_self _ _ _ _
      have hnoop : setIndexHeight cfg.defaultHeight
          ((procData cfg rc0 offset (i + 1) hs' rest).2) (offset + i) (itemHeight cfg item)
          = (procData cfg rc0 offset (i + 1) hs' rest).2 :=
        setIndexHeight_noop _ _ _ _ hself
      rw [hnoop]
      have hih := ih (i + 1) hs' fun k hk1 hk2 => hblock k (by omega) (by simp at hk2 ⊢; omega)
      rw [hih]

/-! ## More lookup and count lemmas -/

theorem lookupKey_of_mem {β : Type} {l : List (Nat × β)} (h : keysSorted l)
    {p : Nat × β} (hp : p ∈ l) : lookupKey l p.1 = some p.2 := by
  induction l with
  | nil => simp at hp
  | cons x xs ih =>
    obtain ⟨k, v⟩ := x
    obtain ⟨hxb, hxs⟩ := keysSorted_cons.mp h
    rcases List.mem_cons.mp hp with rfl | hp'
    · simp [lookupKey_cons]
    · rw [lookupKey_cons, if_neg (show ¬ p.1 = k by have := hxb p hp'; omega)]
      exact ih hxs hp'

theorem mem_of_lookupKey {β : Type} {l : List (Nat × β)} {q : Nat} {v : β}
    (h : lookupKey l q = some v) : (q, v) ∈ l := by
  induction l with
  | nil => simp [lookupKey] at h
  | cons x xs ih =>
    obtain ⟨k, w⟩ := x
    rw [lookupKey_cons] at h
    by_cases hq : q = k
    · rw [if_pos hq] at h
      subst hq
      rw [Option.some.injEq] at h
      subst h
      exact List.mem_cons_self _ _
    · rw [if_neg hq] at h
      exact List.mem_cons_of_mem _ (ih h)

theorem currentCountOf_le_iff {β : Type} (l : List (Nat × β)) (n : Nat) :
    currentCountOf l ≤ n ↔ ∀ p ∈ l, p.1 + 1 ≤ n := by
  induction l with
  | nil => simp [currentCountOf]
  | cons x xs ih =>
    unfold currentCountOf at ih ⊢
    simp only [List.foldr_cons, List.mem_cons]
    constructor
    · intro h p hp
      rcases hp with rfl | hp'
      · omega
      · exact ih.mp (by omega) p hp'
    · intro h
      have h1 := h x (Or.inl rfl)
      have h2 := ih.mpr fun p hp => h p (Or.inr hp)
      omega

theorem currentCountOf_key_le {β : Type} {l : List (Nat × β)} {p : Nat × β}
    (hp : p ∈ l) : p.1 + 1 ≤ currentCountOf l :=
  (currentCountOf_le_iff l (currentCountOf l)).mp (Nat.le_refl _) p hp

theorem currentCountOf_le {β : Type} (l2 l1 : List (Nat × β))
    (h : ∀ p ∈ l2, ∃ v, (p.1, v) ∈ l1) : currentCountOf l2 ≤ currentCountOf l1 := by
  rw [currentCountOf_le_iff]
  intro p hp
  obtain ⟨v, hv⟩ := h p hp
  simpa using currentCountOf_key_le hv

/-! ## Idempotence of merge-then-evict -/

/-- Second application of `{ ...prev, ...fetched }` followed by the
eviction pass is the identity, provided `fetched` was already merged once:
the stable sort keeps exactly the same `cacheSize` survivors. -/
theorem evict_merge_idem {β : Type} (cs off : Nat) (P F : List (Nat × β))
    (hP : keysSorted P) (hF : keysSorted F) :
    (if cs < (mergeSorted
          (if cs < (mergeSorted P F).length then evictNearest cs off (mergeSorted P F)
           else mergeSorted P F) F).length then
       evictNearest cs off (mergeSorted
          (if cs < (mergeSorted P F).length then evictNearest cs off (mergeSorted P F)
           else mergeSorted P F) F)
     else mergeSorted
          (if cs < (mergeSorted P F).length then evictNearest cs off (mergeSorted P F)
           else mergeSorted P F) F)
      = (if cs < (mergeSorted P F).length then evictNearest cs off (mergeSorted P F)
         else mergeSorted P F) := by
  have hM1 : keysSorted (mergeSorted P F) := mergeSorted_keysSorted P F hP hF
  by_cases hover : cs < (mergeSorted P F).length
  · -- overflow on the first pass
    rw [if_pos hover]
    set M1 := mergeSorted P F with hM1def
    set K := (sortByDist off (M1.map Prod.fst)).take cs with hKdef
    have hitems1 : evictNearest cs off M1
        = M1.filter (fun p => K.contains p.1) := evictNearest_eq_filter cs off M1
    have hitems1_sorted : keysSorted (evictNearest cs off M1) := by
      rw [hitems1]
      exact keysSorted_filter _ _ hM1
    have hitems1_len : (evictNearest cs off M1).length = cs := by
      rw [evictNearest_length cs off M1 hM1]
      omega
    -- the second merge is M1 filtered down to kept-or-fetched keys
    have hM2 : mergeSorted (evictNearest cs off M1) F
        = M1.filter (fun p => K.contains p.1 || (lookupKey F p.1).isSome) := by
      apply lookupKey_ext
        (mergeSorted_keysSorted _ _ hitems1_sorted hF)
        (keysSorted_filter _ _ hM1)
      intro q
      rw [lookupKey_mergeSorted _ _ hitems1_sorted hF q]
      rw [hitems1, lookupKey_filter (fun k => K.contains k) M1 q]
      rw [lookupKey_filter (fun k => K.contains k || (lookupKey F k).isSome) M1 q]
      cases hFq : lookupKey F q with
      | some v =>
        have hM1q : lookupKey M1 q = some v := by
          rw [hM1def, lookupKey_mergeSorted P F hP hF q, hFq]
          rfl
        simp [orO, hM1q]
      | none =>
        cases hKq : K.contains q <;> simp [orO, hKq]
    rw [hM2]
    -- keys of the second merge, sorted by distance, start with exactly K
    have hkeys2 : (M1.filter (fun p => K.contains p.1 || (lookupKey F p.1).isSome)).map
        Prod.fst
        = (M1.map Prod.fst).filter (fun k => K.contains k || (lookupKey F k).isSome) :=
      map_fst_filter_keys (fun k => K.contains k || (lookupKey F k).isSome) M1
    have hKlen : K.length = cs := by
      rw [hKdef, List.length_take, (sortByDist_perm off _).length_eq, List.length_map]
      omega
    have hsortfil : sortByDist off ((M1.map Prod.fst).filter
          (fun k => K.contains k || (lookupKey F k).isSome))
        = K ++ ((sortByDist off (M1.map Prod.fst)).drop cs).filter
            (fun k => K.contains k || (lookupKey F k).isSome) := by
      rw [sortByDist_filter]
      conv_lhs => rw [← List.take_append_drop cs (sortByDist off (M1.map Prod.fst))]
      rw [List.filter_append]
      congr 1
      rw [List.filter_eq_self]
      intro a ha
      have haK : a ∈ K := ha
      simp only [Bool.or_eq_true]
      exact Or.inl (by simpa using haK)
    have htake : (sortByDist off ((M1.map Prod.fst).filter
          (fun k => K.contains k || (lookupKey F k).isSome))).take cs = K := by
      rw [hsortfil, ← hKlen, List.take_left]
    -- now the second eviction keeps exactly the K-filter again
    have hevict2 : evictNearest cs off
        (M1.filter (fun p => K.contains p.1 || (lookupKey F p.1).isSome))
        = M1.filter (fun p => K.contains p.1) := by
      rw [evictNearest_eq_filter, hkeys2, htake, List.filter_filter]
      apply List.filter_congr
      intro p _
      cases hKp : K.contains p.1 <;> simp [hKp]
    by_cases hover2 : cs < (M1.filter
        (fun p => K.contains p.1 || (lookupKey F p.1).isSome)).length
    · rw [if_pos hover2, hevict2, hitems1]
    · rw [if_neg hover2]
      -- no overflow: the merge already equals the kept entries
      have hsub : (M1.filter (fun p => K.contains p.1)).Sublist
          (M1.filter (fun p => K.contains p.1 || (lookupKey F p.1).isSome)) := by
        apply List.monotone_filter_right
        intro p hp
        simp only [Bool.or_eq_true]
        exact Or.inl hp
      have hlen2 : (M1.filter (fun p => K.contains p.1 || (lookupKey F p.1).isSome)).length
          ≤ cs := by omega
      have hlen1 : (M1.filter (fun p => K.contains p.1)).length = cs := by
        rw [← hitems1]
        exact hitems1_len
      have hsublen := hsub.length_le
      have := List.Sublist.eq_of_length hsub (by omega)
      rw [hitems1, this]
  · -- no overflow on the first pass
    rw [if_neg hover]
    have hM2 : mergeSorted (mergeSorted P F) F = mergeSorted P F := by
      apply lookupKey_ext (mergeSorted_keysSorted _ _ hM1 hF) hM1
      intro q
      rw [lookupKey_mergeSorted _ _ hM1 hF q]
      rw [lookupKey_mergeSorted P F hP hF q]
      cases hFq : lookupKey F q <;> simp [orO, hFq]
    rw [hM2, if_neg hover]

theorem fetchItems_of_no_skip (cfg : Config) (s : EngineState α) (offset size : Nat)
    (data : List (TorrentData α)) (h : skipFetch s offset = false) :
    fetchItems cfg s offset size data = (fetchBody cfg s offset size data, true) := by
  unfold fetchItems
  rw [h]
  simp

theorem skipFetch_none (s : EngineState α) (offset : Nat)
    (h : s.resolvedCount = none) : skipFetch s offset = false := by
  unfold skipFetch
  rw [h]

theorem skipFetch_some (s : EngineState α) (offset rc : Nat)
    (h : s.resolvedCount = some rc) : skipFetch s offset = decide (rc ≤ offset) := by
  unfold skipFetch
  rw [h]

/-- C4. Applying the same fetched batch (same offset, size and records)
twice leaves the whole engine state — item cache, per-index heights, prefix
array, total delta, resolved count and max-loaded count — identical to
applying it once. -/
theorem fetch_batch_idempotent (cfg : Config) (s : EngineState α) (offset size : Nat)
    (data : List (TorrentData α)) (hsorted : keysSorted s.itemsMap) :
    (fetchItems cfg (fetchItems cfg s offset size data).1 offset size data).1
      = (fetchItems cfg s offset size data).1 := by
  by_cases hskip : skipFetch s offset = true
  · simp [fetchItems_of_skip cfg s offset size data hskip]
  · have hskip' : skipFetch s offset = false := by
      cases h : skipFetch s offset
      · rfl
      · exact absurd h hskip
    rw [fetchItems_of_no_skip cfg s offset size data hskip']
    show (fetchItems cfg (fetchBody cfg s offset size data) offset size data).1
      = fetchBody cfg s offset size data
    by_cases h0 : cfg.isInfinite = true ∧ data.length = 0
    · -- empty open-ended response: the second call is short-circuited
      have hbody : fetchBody cfg s offset size data
          = { s with resolvedCount := some (rcMin s.resolvedCount offset) } := by
        unfold fetchBody
        rw [if_pos h0]
      rw [hbody]
      have hsk1 : skipFetch { s with resolvedCount := some (rcMin s.resolvedCount offset) }
          offset = true := by
        rw [skipFetch_some _ offset (rcMin s.resolvedCount offset) rfl,
          decide_eq_true_eq]
        cases hrc : s.resolvedCount <;> simp [rcMin]
      rw [fetchItems_of_skip cfg _ offset size data hsk1]
    · -- real batch path
      have hofflt : ∀ rc, s.resolvedCount = some rc → offset < rc := by
        intro rc hrc
        rw [skipFetch_some s offset rc hrc] at hskip'
        simp at hskip'
        omega
      have hbody1 := fetchBody_eq cfg s offset size data h0
      set s1 := fetchBody cfg s offset size data with hs1def
      have hrc1 : s1.resolvedCount
          = if cfg.isInfinite = true ∧ data.length < size then
              some (rcMin s.resolvedCount (offset + data.length))
            else s.resolvedCount := by rw [hbody1]
      have hhs1 : s1.heights = (procData cfg s.resolvedCount offset 0 s.heights data).2 := by
        rw [hbody1]
        rfl
      have hitems1 : s1.itemsMap
          = if cfg.useCache = true ∧ cfg.cacheSize < (mergedOf cfg s offset data).length then
              evictNearest cfg.cacheSize offset (mergedOf cfg s offset data)
            else mergedOf cfg s offset data := by rw [hbody1]
      have hml1 : s1.maxLoadedCount
          = max s.maxLoadedCount (currentCountOf (mergedOf cfg s offset data)) := by
        rw [hbody1]
      -- the updated resolved count blocks exactly the same batch indices
      have hblock : ∀ k, offset + 0 ≤ k → k < offset + 0 + data.length →
          blocked s1.resolvedCount k = blocked s.resolvedCount k := by
        intro k hk1 hk2
        rw [hrc1]
        by_cases hif : cfg.isInfinite = true ∧ data.length < size
        · rw [if_pos hif]
          cases hrc : s.resolvedCount with
          | none =>
            simp only [blocked, rcMin]
            rw [decide_eq_false_iff_not]
            omega
          | some rc =>
            have := hofflt rc hrc
            simp only [blocked, rcMin]
            rw [decide_eq_decide]
            omega
        · rw [if_neg hif]
      have hproc := procData_idem cfg s.resolvedCount s1.resolvedCount offset data 0
        s.heights hblock
      have hF2 : fetchedOf cfg s1 offset data = fetchedOf cfg s offset data := by
        unfold fetchedOf
        rw [hhs1, hproc]
      have hH2 : heightsOf cfg s1 offset data
          = (procData cfg s.resolvedCount offset 0 s.heights data).2 := by
        unfold heightsOf
        rw [hhs1, hproc]
      have hFs : keysSorted (fetchedOf cfg s offset data) :=
        fetchedOf_keysSorted cfg s offset data
      have hmerged2 : mergedOf cfg s1 offset data
          = if cfg.useCache = true then
              mergeSorted s1.itemsMap (fetchedOf cfg s offset data)
            else fetchedOf cfg s offset data := by
        unfold mergedOf
        rw [hF2]
      -- the second resolved-count update is a fixpoint
      have hrc2 : (if cfg.isInfinite = true ∧ data.length < size then
            some (rcMin s1.resolvedCount (offset + data.length))
          else s1.resolvedCount) = s1.resolvedCount := by
        by_cases hif : cfg.isInfinite = true ∧ data.length < size
        · rw [if_pos hif, hrc1, if_pos hif]
          cases hrc : s.resolvedCount with
          | none => simp [rcMin]
          | some rc =>
            simp only [rcMin, Option.some.injEq]
            omega
        · rw [if_neg hif]
      -- the second call is not short-circuited either
      have hsk1 : skipFetch s1 offset = false := by
        rcases hcase : s1.resolvedCount with _ | v
        · exact skipFetch_none s1 offset hcase
        · rw [skipFetch_some s1 offset v hcase, decide_eq_false_iff_not]
          rw [hrc1] at hcase
          by_cases hif : cfg.isInfinite = true ∧ data.length < size
          · rw [if_pos hif] at hcase
            have hlen : data.length ≠ 0 := fun hl => h0 ⟨hif.1, hl⟩
            rw [Option.some.injEq] at hcase
            cases hrc : s.resolvedCount with
            | none => rw [hrc] at hcase; simp [rcMin] at hcase; omega
            | some rc =>
              have := hofflt rc hrc
              rw [hrc] at hcase
              simp [rcMin] at hcase
              omega
          · rw [if_neg hif] at hcase
            have := hofflt v hcase
            omega
      -- the merged map can only mention keys the first merge already had
      have hccle : currentCountOf (mergedOf cfg s1 offset data)
          ≤ currentCountOf (mergedOf cfg s offset data) := by
        apply currentCountOf_le
        intro p hp
        rw [hmerged2] at hp
        by_cases huse : cfg.useCache = true
        · rw [if_pos huse] at hp
          rcases mem_mergeSorted _ _ _ hp with h' | h'
          · rw [hitems1] at h'
            by_cases hov : cfg.useCache = true
                ∧ cfg.cacheSize < (mergedOf cfg s offset data).length
            · rw [if_pos hov] at h'
              exact ⟨p.2, evictNearest_mem _ _ _ p h'⟩
            · rw [if_neg hov] at h'
              exact ⟨p.2, h'⟩
          · have hlk := lookupKey_of_mem hFs h'
            have hlm : lookupKey (mergedOf cfg s offset data) p.1 = some p.2 := by
              unfold mergedOf
              rw [if_pos huse, lookupKey_mergeSorted _ _ hsorted hFs, hlk]
              rfl
            exact ⟨p.2, mem_of_lookupKey hlm⟩
        · rw [if_neg huse] at hp
          have hlm : lookupKey (mergedOf cfg s offset data) p.1 = some p.2 := by
            unfold mergedOf
            rw [if_neg huse]
            exact lookupKey_of_mem hFs hp
          exact ⟨p.2, mem_of_lookupKey hlm⟩
      -- assemble the second call and compare component-wise
      rw [fetchItems_of_no_skip cfg s1 offset size data hsk1]
      show fetchBody cfg s1 offset size data = s1
      rw [fetchBody_eq cfg s1 offset size data h0]
      refine EngineState.ext ?_ ?_ ?_ ?_
      · show (if cfg.isInfinite = true ∧ data.length < size then
            some (rcMin s1.resolvedCount (offset + data.length))
          else s1.resolvedCount) = s1.resolvedCount
        exact hrc2
      · show (if cfg.useCache = true
              ∧ cfg.cacheSize < (mergedOf cfg s1 offset data).length then
            evictNearest cfg.cacheSize offset (mergedOf cfg s1 offset data)
          else mergedOf cfg s1 offset data) = s1.itemsMap
        by_cases huse : cfg.useCache = true
        · have hms : mergedOf cfg s offset data
              = mergeSorted s.itemsMap (fetchedOf cfg s offset data) := by
            unfold mergedOf
            rw [if_pos huse]
          have hms1 : mergedOf cfg s1 offset data
              = mergeSorted s1.itemsMap (fetchedOf cfg s offset data) := by
            rw [hmerged2, if_pos huse]
          rw [hms1]
          rw [hms] at hitems1
          simp only [huse, true_and] at hitems1 ⊢
          rw [hitems1]
          exact evict_merge_idem cfg.cacheSize offset s.itemsMap
            (fetchedOf cfg s offset data) hsorted hFs
        · have hcond : ¬ (cfg.useCache = true
              ∧ cfg.cacheSize < (mergedOf cfg s1 offset data).length) :=
            fun h => huse h.1
          have hcond' : ¬ (cfg.useCache = true
              ∧ cfg.cacheSize < (mergedOf cfg s offset data).length) :=
            fun h => huse h.1
          rw [if_neg hcond, hmerged2, if_neg huse, hitems1, if_neg hcond']
          unfold mergedOf
          rw [if_neg huse]
      · show heightsOf cfg s1 offset data = s1.heights
        rw [hH2, hhs1]
      · show max s1.maxLoadedCount (currentCountOf (mergedOf cfg s1 offset data))
          = s1.maxLoadedCount
        rw [hml1]
        exact Nat.max_eq_left (Nat.le_trans hccle (Nat.le_max_right _ _))

/-- Witness for C4: re-applying a two-record batch at offset 0 to a fresh
engine changes nothing. -/
theorem fetch_batch_idempotent_witness :
    (fetchItems cfgCap2
        (fetchItems cfgCap2 (initES Nat) 0 2 [⟨"a", 0⟩, ⟨"a", 1⟩]).1 0 2
        [⟨"a", 0⟩, ⟨"a", 1⟩]).1
      = (fetchItems cfgCap2 (initES Nat) 0 2 [⟨"a", 0⟩, ⟨"a", 1⟩]).1 :=
  fetch_batch_idempotent cfgCap2 (initES Nat) 0 2 [⟨"a", 0⟩, ⟨"a", 1⟩]
    (by unfold keysSorted initES; simp)

/-! ## Window calculator (`computeRange`) -/

/-- Constant `BUFFER = 5` of the source. -/
def BUFFER : Nat := 5

/-- Constant `Number.MAX_SAFE_INTEGER`. -/
def MAX_SAFE_INTEGER : Nat := 9007199254740991

/-- The `{ start, size }` record `computeRange` returns. -/
structure VRange where
  start : Nat
  size : Nat
deriving DecidableEq

/-- Loop `while (idx > 0 && topForIndex(idx) > scrollTopVal) idx--`. -/
def corrLoopDown (d : Int) : Nat → HeightState → Int → Nat × HeightState
  | 0, hs, _ => (0, hs)
  | i + 1, hs, st =>
    let r := topForIndex d hs ((i + 1 : Nat) : Int)
    if r.2 > st then corrLoopDown d i r.1 st else (i + 1, r.1)

/-- Loop `while (topForIndex(idx + 1) <= scrollTopVal) idx++`, fuelled: `none`
models the loop not terminating within `fuel` steps. -/
def corrLoopUp (d : Int) (st : Int) : Nat → Nat → HeightState → Option (Nat × HeightState)
  | 0, _, _ => none
  | fuel + 1, i, hs =>
    let r := topForIndex d hs ((i + 1 : Nat) : Int)
    if r.2 ≤ st then corrLoopUp d st fuel (i + 1) r.1 else some (i, r.1)

/-- Loop `while (end < limit && acc < vh) { acc += heightsRef.current[end] ??
defaultHeight; end++ }`, fuelled. -/
def accLoop (d : Int) (heights : Nat → Option Int) (limit : Nat) (vh : Int) :
    Nat → Int → Nat → Option Nat
  | 0, _, _ => none
  | fuel + 1, acc, e =>
    if e < limit ∧ acc < vh then
      accLoop d heights limit vh fuel (acc + (heights e).getD d) (e + 1)
    else some e

/-- Model of `computeRange`: `null` when the default height is zero (the guard
`!contRef.current || !defaultHeight`) or when a loop exhausts its fuel;
otherwise seed the index at `floor(scrollTop / defaultHeight)`, correct it
against the height table, accumulate heights to the viewport bottom and
return `{ start: max(0, idx - BUFFER), size: max(pageSize, end - idx +
BUFFER * 2) }` together with the height table extended by the
materializations the loops performed. -/
def computeRange (cfg : Config) (hs : HeightState) (rc : Option Nat)
    (scrollTop vh : Int) (fuel : Nat) : Option (VRange × HeightState) :=
  if cfg.defaultHeight = 0 then none
  else
    let idx0 : Nat := (max 0 (Int.fdiv scrollTop cfg.defaultHeight)).toNat
    let r1 := corrLoopDown cfg.defaultHeight idx0 hs scrollTop
    match corrLoopUp cfg.defaultHeight scrollTop fuel r1.1 r1.2 with
    | none => none
    | some (idx, hs2) =>
      let limit := rc.getD MAX_SAFE_INTEGER
      match accLoop cfg.defaultHeight hs2.heights limit vh fuel 0 idx with
      | none => none
      | some e =>
        some ({ start := (max 0 ((idx : Int) - (BUFFER : Int))).toNat
                size := max cfg.pageSize (e - idx + BUFFER * 2) }, hs2)

/-! Spec-side restatement of §4.2, used to check C5 as a refinement: these
definitions follow the specification's wording of the four steps. -/

/-- Spec step 1: "Seed a candidate start index via
`floor(scrollTop / defaultHeight)`" (clamped to 0 as the code's
`Math.max(0, ...)` requires). -/
def specSeedIdx (d scrollTop : Int) : Nat := (max 0 (Int.fdiv scrollTop d)).toNat

/-- Spec step 2, first half: "decrement while `topOffset(idx) > scrollTop`". -/
def specWalkDown (d : Int) : Nat → HeightState → Int → Nat × HeightState
  | 0, hs, _ => (0, hs)
  | i + 1, hs, st =>
    let r := topForIndex d hs ((i + 1 : Nat) : Int)
    if r.2 > st then specWalkDown d i r.1 st else (i + 1, r.1)

/-- Spec step 2, second half: "increment while
`topOffset(idx+1) <= scrollTop`". -/
def specWalkUp (d : Int) (st : Int) : Nat → Nat → HeightState → Option (Nat × HeightState)
  | 0, _, _ => none
  | fuel + 1, i, hs =>
    let r := topForIndex d hs ((i + 1 : Nat) : Int)
    if r.2 ≤ st then specWalkUp d st fuel (i + 1) r.1 else some (i, r.1)

/-- Spec step 3: "Accumulate forward from the corrected start, summing
per-index heights until accumulated height ≥ `viewportHeight`, yielding an
end index" (bounded by the resolved count, as the code's `limit` is). -/
def specAccum (d : Int) (heights : Nat → Option Int) (limit : Nat) (vh : Int) :
    Nat → Int → Nat → Option Nat
  | 0, _, _ => none
  | fuel + 1, acc, e =>
    if e < limit ∧ acc < vh then
      specAccum d heights limit vh fuel (acc + (heights e).getD d) (e + 1)
    else some e

/-- Spec step 4: "Return `{ start: max(0, idx − B), size: max(pageSize,
(end − idx) + 2B) }`", assembled over the spec-side steps. -/
def specWindow (cfg : Config) (hs : HeightState) (rc : Option Nat)
    (scrollTop vh : Int) (fuel : Nat) : Option (VRange × HeightState) :=
  if cfg.defaultHeight = 0 then none
  else
    let r1 := specWalkDown cfg.defaultHeight (specSeedIdx cfg.defaultHeight scrollTop)
      hs scrollTop
    match specWalkUp cfg.defaultHeight scrollTop fuel r1.1 r1.2 with
    | none => none
    | some (idx, hs2) =>
      match specAccum cfg.defaultHeight hs2.heights (rc.getD MAX_SAFE_INTEGER) vh
          fuel 0 idx with
      | none => none
      | some e =>
        some ({ start := (max 0 ((idx : Int) - (BUFFER : Int))).toNat
                size := max cfg.pageSize (e - idx + BUFFER * 2) }, hs2)

theorem specWalkDown_eq (d : Int) (i : Nat) (hs : HeightState) (st : Int) :
    specWalkDown d i hs st = corrLoopDown d i hs st := by
  induction i generalizing hs with
  | zero => rfl
  | succ i ih =>
    rw [specWalkDown, corrLoopDown]
    by_cases h : (topForIndex d hs ((i + 1 : Nat) : Int)).2 > st
    · simp only [h, if_pos]
      exact ih _
    · simp only [h, if_false]

theorem specWalkUp_eq (d st : Int) (fuel : Nat) :
    ∀ (i : Nat) (hs : HeightState), specWalkUp d st fuel i hs = corrLoopUp d st fuel i hs := by
  induction fuel with
  | zero => intro i hs; rfl
  | succ fuel ih =>
    intro i hs
    rw [specWalkUp, corrLoopUp]
    by_cases h : (topForIndex d hs ((i + 1 : Nat) : Int)).2 ≤ st
    · simp only [h, if_pos]
      exact ih _ _
    · simp only [h, if_false]

theorem specAccum_eq (d : Int) (heights : Nat → Option Int) (limit : Nat) (vh : Int)
    (fuel : Nat) : ∀ (acc : Int) (e : Nat),
      specAccum d heights limit vh fuel acc e = accLoop d heights limit vh fuel acc e := by
  induction fuel with
  | zero => intro acc e; rfl
  | succ fuel ih =>
    intro acc e
    rw [specAccum, accLoop]
    by_cases h : e < limit ∧ acc < vh
    · simp only [h, if_pos]
      exact ih _ _
    · simp only [h, if_false]

/-- The fixed configuration of the C5 scenario: default height 60,
viewport 600, scroll offset 0, any page size. -/
def cfg60 (ps : Nat) : Config :=
  { pageSize := ps
    isInfinite := false
    useCache := true
    cacheSize := 1000
    defaultHeight := 60
    layoutHeights := fun _ => none }

/-- C5. `computeRange` is exactly the spec's window formula: it agrees
everywhere with the spec-side assembly of seed / correct / accumulate and
`{ start: max(0, idx − B), size: max(pageSize, (end − idx) + 2B) }`, the
buffer constant is 5, and in the scenario (viewport 600, default height 60,
scroll 0) it yields `start = 0` and `size = max(pageSize, 20)`. -/
theorem computeRange_matches_spec :
    (∀ (cfg : Config) (hs : HeightState) (rc : Option Nat) (scrollTop vh : Int)
        (fuel : Nat),
        computeRange cfg hs rc scrollTop vh fuel = specWindow cfg hs rc scrollTop vh fuel)
      ∧ BUFFER = 5
      ∧ (∀ ps : Nat, ∃ hs2,
          computeRange (cfg60 ps) initHS none 0 600 20
            = some ({ start := 0, size := max ps 20 }, hs2)) := by
  refine ⟨?_, rfl, ?_⟩
  · intro cfg hs rc scrollTop vh fuel
    unfold computeRange specWindow
    by_cases hd : cfg.defaultHeight = 0
    · rw [if_pos hd, if_pos hd]
    · rw [if_neg hd, if_neg hd]
      simp only [specWalkDown_eq, specWalkUp_eq, specAccum_eq, specSeedIdx]
  · intro ps
    exact ⟨_, rfl⟩

/-! ## Fetch effects -/

/-- The scroll-triggered fetch effect:
`if (!defaultHeight) return; const r = computeRange(); if (r)
fetchItems(r.start, r.size)`. The Bool records whether the injected source
was called. -/
def scrollEffect (cfg : Config) (torrent : Nat → Nat → List (TorrentData α))
    (s : EngineState α) (scrollTop vh : Int) (fuel : Nat) : EngineState α × Bool :=
  if cfg.defaultHeight = 0 then (s, false)
  else
    match computeRange cfg s.heights s.resolvedCount scrollTop vh fuel with
    | none => (s, false)
    | some (r, hs2) =>
      fetchItems cfg { s with heights := hs2 } r.start r.size (torrent r.start r.size)

/-- The initial fetch effect:
`if (!defaultHeight) return; fetchItems(0, pageSize)`. -/
def initialEffect (cfg : Config) (torrent : Nat → Nat → List (TorrentData α))
    (s : EngineState α) : EngineState α × Bool :=
  if cfg.defaultHeight = 0 then (s, false)
  else fetchItems cfg s 0 cfg.pageSize (torrent 0 cfg.pageSize)

/-- C9. While the default height is zero (no probe measured yet) the engine
is inert: `computeRange` yields no range, and neither the scroll-triggered
fetch effect nor the initial fetch effect changes the state or calls the
injected source. -/
theorem zero_default_height_blocks (cfg : Config) (hs : HeightState) (rc : Option Nat)
    (scrollTop vh : Int) (fuel : Nat) (torrent : Nat → Nat → List (TorrentData α))
    (s : EngineState α) (hd : cfg.defaultHeight = 0) :
    computeRange cfg hs rc scrollTop vh fuel = none
      ∧ scrollEffect cfg torrent s scrollTop vh fuel = (s, false)
      ∧ initialEffect cfg torrent s = (s, false) := by
  refine ⟨?_, ?_, ?_⟩
  · unfold computeRange
    rw [if_pos hd]
  · unfold scrollEffect
    rw [if_pos hd]
  · unfold initialEffect
    rw [if_pos hd]

/-- A configuration whose default height has not been measured yet. -/
def cfgZero : Config :=
  { pageSize := 20
    isInfinite := false
    useCache := true
    cacheSize := 1000
    defaultHeight := 0
    layoutHeights := fun _ => none }

/-- Witness for C9 at the unmeasured configuration and a fresh engine. -/
theorem zero_default_height_blocks_witness :
    computeRange cfgZero initHS none 0 600 20 = none
      ∧ scrollEffect cfgZero (fun _ _ => []) (initES Nat) 0 600 20 = (initES Nat, false)
      ∧ initialEffect cfgZero (fun _ _ => []) (initES Nat) = (initES Nat, false) :=
  zero_default_height_blocks cfgZero initHS none 0 600 20 (fun _ _ => [])
    (initES Nat) rfl

/-! ## Row packer (`ensureRows` of VirtualScrollRow) -/

/-- A row in `rowsRef`: either a packed row
`{ lKey: itemLayout.key, data: { items } }` of packable records, or a
special record pushed standalone. -/
inductive RowEntry (β : Type) where
  | packed (items : List (TorrentData β))
  | special (el : TorrentData β)
deriving DecidableEq

/-- The packer's refs: `rowsRef`, `pendingChunkRef`, `elementCursorRef`,
`endReachedRef`. -/
structure PackState (β : Type) where
  rows : List (RowEntry β)
  pendingChunk : List (TorrentData β)
  elementCursor : Nat
  endReached : Bool
deriving DecidableEq

/-- Fresh packer state. -/
def initPack (β : Type) : PackState β := ⟨[], [], 0, false⟩

/-- Elements a finalized row accounts for during the defensive cursor
resync: the packed row's length, or 1 for a special row. -/
def rowConsumed {β : Type} : RowEntry β → Nat
  | .packed items => items.length
  | .special _ => 1

/-- The authoritative consumed-element count: elements in finalized rows
plus the pending partial buffer. -/
def consumedCount {β : Type} (st : PackState β) : Nat :=
  (st.rows.map rowConsumed).sum + st.pendingChunk.length

/-- Push the pending partial buffer as a finalized (possibly undersized)
row. -/
def flushPend {β : Type} (st : PackState β) : PackState β :=
  { st with rows := st.rows ++ [.packed st.pendingChunk], pendingChunk := [] }

/-- The `for (const el of resp)` loop: packable elements accumulate in the
pending buffer and flush at `itemsPerRow`; a special element first flushes
a non-empty buffer, then stands alone; `break` once `neededRows` rows
exist. -/
def packLoop {β : Type} (itemKey : String) (ipr neededRows : Nat) :
    PackState β → List (TorrentData β) → PackState β
  | st, [] => st
  | st, el :: rest =>
    let st' :=
      if el.lKey = itemKey then
        let p := st.pendingChunk ++ [el]
        if p.length = ipr then
          { st with rows := st.rows ++ [.packed p], pendingChunk := [] }
        else { st with pendingChunk := p }
      else
        let stf :=
          if 0 < st.pendingChunk.length then flushPend st
          else st
        { stf with rows := stf.rows ++ [.special el] }
    if neededRows ≤ st'.rows.length then st' else packLoop itemKey ipr neededRows st' rest

/-- Batch size `Math.max(need * itemsPerRow, pageSize * itemsPerRow, itemsPerRow * 5)`
with the `Math.max(1, itemsPerRow)` clamps of the source. -/
def fetchElemsOf (ipr pageSize need : Nat) : Nat :=
  max (need * max 1 ipr) (max (pageSize * max 1 ipr) (max 1 ipr * 5))

/-- One iteration of the `while` body of `ensureRows`: fetch a batch at the
element cursor, handle end-of-data, pack, flush on a short response, then
resync the cursor from the authoritative consumed count. -/
def ensureStep {β : Type} (itemKey : String) (ipr pageSize : Nat)
    (torrent : Nat → Nat → List (TorrentData β)) (neededRows : Nat)
    (st : PackState β) : PackState β :=
  let need := neededRows - st.rows.length
  let fetchElems := fetchElemsOf ipr pageSize need
  let resp := torrent st.elementCursor fetchElems
  let st1 := { st with elementCursor := st.elementCursor + resp.length }
  if resp.length = 0 then
    let st2 := { st1 with endReached := true }
    if 0 < st2.pendingChunk.length then flushPend st2 else st2
  else
    let st2 := packLoop itemKey ipr neededRows st1 resp
    let st3 :=
      if resp.length < fetchElems ∧ 0 < st2.pendingChunk.length then flushPend st2
      else st2
    { st3 with elementCursor := consumedCount st3 }

/-- The `while (rows.length < neededRows && !endReached)` loop, fuelled. -/
def ensureRowsLoop {β : Type} (itemKey : String) (ipr pageSize : Nat)
    (torrent : Nat → Nat → List (TorrentData β)) (neededRows : Nat) :
    Nat → PackState β → PackState β
  | 0, st => st
  | fuel + 1, st =>
    if st.rows.length < neededRows ∧ st.endReached = false then
      ensureRowsLoop itemKey ipr pageSize torrent neededRows fuel
        (ensureStep itemKey ipr pageSize torrent neededRows st)
    else st

/-- Model of `ensureRows(neededRows)`. -/
def ensureRows {β : Type} (itemKey : String) (ipr pageSize : Nat)
    (torrent : Nat → Nat → List (TorrentData β)) (fuel neededRows : Nat)
    (st : PackState β) : PackState β :=
  ensureRowsLoop itemKey ipr pageSize torrent neededRows fuel st

/-- The packable layout key of the scenarios. -/
def packKey : String := "item"

/-- A paginated source of exactly 7 packable elements. -/
def torrent7 (offset size : Nat) : List (TorrentData Nat) :=
  (((List.range 7).drop offset).take size).map (fun i => ⟨packKey, i⟩)

theorem packLoop_nil {β : Type} (itemKey : String) (ipr neededRows : Nat)
    (st : PackState β) : packLoop itemKey ipr neededRows st [] = st := rfl

theorem packLoop_cons {β : Type} (itemKey : String) (ipr neededRows : Nat)
    (st : PackState β) (el : TorrentData β) (rest : List (TorrentData β)) :
    packLoop itemKey ipr neededRows st (el :: rest)
      = (let st' :=
          if el.lKey = itemKey then
            let p := st.pendingChunk ++ [el]
            if p.length = ipr then
              { st with rows := st.rows ++ [.packed p], pendingChunk := [] }
            else { st with pendingChunk := p }
          else
            let stf :=
              if 0 < st.pendingChunk.length then flushPend st
              else st
            { stf with rows := stf.rows ++ [.special el] }
        if neededRows ≤ st'.rows.length then st'
        else packLoop itemKey ipr neededRows st' rest) := rfl

theorem ensureRowsLoop_end {β : Type} (itemKey : String) (ipr pageSize : Nat)
    (torrent : Nat → Nat → List (TorrentData β)) (neededRows fuel : Nat)
    (st : PackState β) (h : st.endReached = true) :
    ensureRowsLoop itemKey ipr pageSize torrent neededRows fuel st = st := by
  cases fuel with
  | zero => rfl
  | succ f =>
    rw [ensureRowsLoop]
    rw [if_neg]
    intro hc
    rw [h] at hc
    exact absurd hc.2 (by simp)

theorem fetchElemsOf_big (ps k : Nat) : 7 < fetchElemsOf 3 ps k := by
  unfold fetchElemsOf
  omega

/-- C7. With `itemsPerRow = 3` over a source of 7 packable elements
followed by end-of-data, `ensureRows n` for any `n ≥ 3` (and enough fuel
for the at most two fetch iterations) produces exactly three rows, of
sizes 3, 3 and 1, with an empty partial buffer. -/
theorem row_packing_seven (ps n fuel : Nat) (hn : 3 ≤ n) (hfuel : 2 ≤ fuel) :
    (ensureRows packKey 3 ps torrent7 fuel n (initPack Nat)).rows
        = [.packed [⟨packKey, 0⟩, ⟨packKey, 1⟩, ⟨packKey, 2⟩],
           .packed [⟨packKey, 3⟩, ⟨packKey, 4⟩, ⟨packKey, 5⟩],
           .packed [⟨packKey, 6⟩]]
      ∧ (ensureRows packKey 3 ps torrent7 fuel n (initPack Nat)).pendingChunk = [] := by
  obtain ⟨f, rfl⟩ : ∃ f, fuel = f + 2 := ⟨fuel - 2, by omega⟩
  have h7E : 7 < fetchElemsOf 3 ps n := fetchElemsOf_big ps n
  have hresp : torrent7 0 (fetchElemsOf 3 ps n) = ([⟨packKey, 0⟩, ⟨packKey, 1⟩,
      ⟨packKey, 2⟩, ⟨packKey, 3⟩, ⟨packKey, 4⟩, ⟨packKey, 5⟩, ⟨packKey, 6⟩]
        : List (TorrentData Nat)) := by
    unfold torrent7
    rw [List.drop_zero, List.take_of_length_le (by simp; omega)]
    rfl
  have hpack : packLoop packKey 3 n (⟨[], [], 7, false⟩ : PackState Nat)
      [⟨packKey, 0⟩, ⟨packKey, 1⟩, ⟨packKey, 2⟩, ⟨packKey, 3⟩, ⟨packKey, 4⟩,
        ⟨packKey, 5⟩, ⟨packKey, 6⟩]
      = ⟨[.packed [⟨packKey, 0⟩, ⟨packKey, 1⟩, ⟨packKey, 2⟩],
          .packed [⟨packKey, 3⟩, ⟨packKey, 4⟩, ⟨packKey, 5⟩]], [⟨packKey, 6⟩], 7,
          false⟩ := by
    simp [packLoop, show ¬ n ≤ 0 from by omega, show ¬ n ≤ 1 from by omega,
      show ¬ n ≤ 2 from by omega]
  have hstep1 : ensureStep packKey 3 ps torrent7 n (initPack Nat)
      = ⟨[.packed [⟨packKey, 0⟩, ⟨packKey, 1⟩, ⟨packKey, 2⟩],
          .packed [⟨packKey, 3⟩, ⟨packKey, 4⟩, ⟨packKey, 5⟩],
          .packed [⟨packKey, 6⟩]], [], 7, false⟩ := by
    simp [ensureStep, initPack, hresp, hpack, h7E, consumedCount, flushPend, rowConsumed]
  have hrespEnd : ∀ E, torrent7 7 E = [] := by
    intro E
    unfold torrent7
    simp
  have hstep2 : ensureStep packKey 3 ps torrent7 n
      (⟨[.packed [⟨packKey, 0⟩, ⟨packKey, 1⟩, ⟨packKey, 2⟩],
         .packed [⟨packKey, 3⟩, ⟨packKey, 4⟩, ⟨packKey, 5⟩],
         .packed [⟨packKey, 6⟩]], [], 7, false⟩ : PackState Nat)
      = ⟨[.packed [⟨packKey, 0⟩, ⟨packKey, 1⟩, ⟨packKey, 2⟩],
          .packed [⟨packKey, 3⟩, ⟨packKey, 4⟩, ⟨packKey, 5⟩],
          .packed [⟨packKey, 6⟩]], [], 7, true⟩ := by
    simp [ensureStep, hrespEnd]
  unfold ensureRows
  rw [ensureRowsLoop, if_pos (by constructor <;> simp [initPack]; omega), hstep1]
  by_cases hn3 : n = 3
  · subst hn3
    rw [ensureRowsLoop, if_neg (by simp)]
    exact ⟨rfl, rfl⟩
  · rw [ensureRowsLoop, if_pos (by constructor <;> simp; omega), hstep2,
      ensureRowsLoop_end _ _ _ _ _ _ _ rfl]
    exact ⟨rfl, rfl⟩

/-- Witness for C7 at page size 20, `ensureRows 3`, fuel 2. -/
theorem row_packing_seven_witness :
    (ensureRows packKey 3 20 torrent7 2 3 (initPack Nat)).rows
        = [.packed [⟨packKey, 0⟩, ⟨packKey, 1⟩, ⟨packKey, 2⟩],
           .packed [⟨packKey, 3⟩, ⟨packKey, 4⟩, ⟨packKey, 5⟩],
           .packed [⟨packKey, 6⟩]]
      ∧ (ensureRows packKey 3 20 torrent7 2 3 (initPack Nat)).pendingChunk = [] :=
  row_packing_seven 20 3 2 (by decide) (by decide)

/-- The mixed stream of C8: two packables, a special title record, three
packables. -/
def stream8 : List (TorrentData Nat) :=
  [⟨packKey, 0⟩, ⟨packKey, 1⟩, ⟨"title", 2⟩, ⟨packKey, 3⟩, ⟨packKey, 4⟩, ⟨packKey, 5⟩]

/-- The paginated source serving `stream8` followed by end-of-data. -/
def torrent8 (offset size : Nat) : List (TorrentData Nat) :=
  (stream8.drop offset).take size

/-- C8. With `itemsPerRow = 3` over the stream `[p, p, title, p, p, p]`
followed by end-of-data, `ensureRows n` for any `n ≥ 3` yields exactly the
rows `[p, p]`, `[title]`, `[p, p, p]`: the special element flushes the
pending partial buffer as a smaller row and then stands alone. -/
theorem row_packing_special (ps n fuel : Nat) (hn : 3 ≤ n) (hfuel : 2 ≤ fuel) :
    (ensureRows packKey 3 ps torrent8 fuel n (initPack Nat)).rows
        = [.packed [⟨packKey, 0⟩, ⟨packKey, 1⟩],
           .special ⟨"title", 2⟩,
           .packed [⟨packKey, 3⟩, ⟨packKey, 4⟩, ⟨packKey, 5⟩]]
      ∧ (ensureRows packKey 3 ps torrent8 fuel n (initPack Nat)).pendingChunk = [] := by
  obtain ⟨f, rfl⟩ : ∃ f, fuel = f + 2 := ⟨fuel - 2, by omega⟩
  have h7E : 7 < fetchElemsOf 3 ps n := fetchElemsOf_big ps n
  have hresp : torrent8 0 (fetchElemsOf 3 ps n) = stream8 := by
    unfold torrent8
    rw [List.drop_zero, List.take_of_length_le (by unfold stream8; simp; omega)]
  have hpack : packLoop packKey 3 n (⟨[], [], 6, false⟩ : PackState Nat) stream8
      = ⟨[.packed [⟨packKey, 0⟩, ⟨packKey, 1⟩],
          .special ⟨"title", 2⟩,
          .packed [⟨packKey, 3⟩, ⟨packKey, 4⟩, ⟨packKey, 5⟩]], [], 6, false⟩ := by
    simp [packLoop, stream8, packKey, flushPend, show ¬ n ≤ 0 from by omega,
      show ¬ n ≤ 1 from by omega, show ¬ n ≤ 2 from by omega]
  have hstep1 : ensureStep packKey 3 ps torrent8 n (initPack Nat)
      = ⟨[.packed [⟨packKey, 0⟩, ⟨packKey, 1⟩],
          .special ⟨"title", 2⟩,
          .packed [⟨packKey, 3⟩, ⟨packKey, 4⟩, ⟨packKey, 5⟩]], [], 6, false⟩ := by
    simp [ensureStep, initPack, hresp, hpack, h7E, consumedCount, flushPend, rowConsumed,
      show stream8.length = 6 from rfl]
  have hrespEnd : ∀ E, torrent8 6 E = [] := by
    intro E
    unfold torrent8 stream8
    simp
  have hstep2 : ensureStep packKey 3 ps torrent8 n
      (⟨[.packed [⟨packKey, 0⟩, ⟨packKey, 1⟩],
         .special ⟨"title", 2⟩,
         .packed [⟨packKey, 3⟩, ⟨packKey, 4⟩, ⟨packKey, 5⟩]], [], 6, false⟩
        : PackState Nat)
      = ⟨[.packed [⟨packKey, 0⟩, ⟨packKey, 1⟩],
          .special ⟨"title", 2⟩,
          .packed [⟨packKey, 3⟩, ⟨packKey, 4⟩, ⟨packKey, 5⟩]], [], 6, true⟩ := by
    simp [ensureStep, hrespEnd]
  unfold ensureRows
  rw [ensureRowsLoop, if_pos (by constructor <;> simp [initPack]; omega), hstep1]
  by_cases hn3 : n = 3
  · subst hn3
    rw [ensureRowsLoop, if_neg (by simp)]
    exact ⟨rfl, rfl⟩
  · rw [ensureRowsLoop, if_pos (by constructor <;> simp; omega), hstep2,
      ensureRowsLoop_end _ _ _ _ _ _ _ rfl]
    exact ⟨rfl, rfl⟩

/-- Witness for C8 at page size 20, `ensureRows 3`, fuel 2. -/
theorem row_packing_special_witness :
    (ensureRows packKey 3 20 torrent8 2 3 (initPack Nat)).rows
        = [.packed [⟨packKey, 0⟩, ⟨packKey, 1⟩],
           .special ⟨"title", 2⟩,
           .packed [⟨packKey, 3⟩, ⟨packKey, 4⟩, ⟨packKey, 5⟩]]
      ∧ (ensureRows packKey 3 20 torrent8 2 3 (initPack Nat)).pendingChunk = [] :=
  row_packing_special 20 3 2 (by decide) (by decide)
